import Mathlib

/-!
Verification of the dependency-graph engine and incremental build orchestrator
of the fireflyframework CLI.

The Go sources are shallowly embedded:

* `Graph` (package `dag`) stores a node set, an edge set and the node insertion
  order.  In Go, `nodes` is a map, `ordered` keeps insertion order, and
  `edges`/`reverse` are forward/reverse indices over the same edge set.  The
  model keeps `ordered` (node set = list membership) and the edge set
  `edgeList` in insertion order; the two indices are derived views
  (`DependenciesOf` / `DependentsOf`).  Go map iteration order is unspecified;
  the model iterates edges in insertion order, which is one admissible order.
* Go `int` degree counters are modelled as `Int`; node ids are `String`.
* Loops whose termination depends on graph finiteness take an explicit fuel
  argument, always called with enough fuel (proved below).
-/

/-- Lexicographic (bytewise) comparison of char lists, as used by Go
`sort.Strings`. -/
def strLeChars : List Char → List Char → Bool
  | [], _ => true
  | _ :: _, [] => false
  | c :: cs, d :: ds =>
    if c.val.toNat < d.val.toNat then true
    else if d.val.toNat < c.val.toNat then false
    else strLeChars cs ds

/-- Lexicographic order on strings (kernel-computable). -/
def strLe (s t : String) : Bool := strLeChars s.data t.data

/-- `dag.Graph`: nodes in insertion order plus the set of dependency edges
`(from, to)` meaning `from` depends on `to`, in insertion order. -/
structure Graph where
  ordered : List String
  edgeList : List (String × String)
deriving DecidableEq, Repr

namespace Graph

/-- `dag.New()`. -/
def new : Graph := ⟨[], []⟩

/-- `g.HasNode(id)`. -/
def HasNode (g : Graph) (id : String) : Bool := g.ordered.contains id

/-- `g.AddNode(id)`: duplicate adds are no-ops. -/
def AddNode (g : Graph) (id : String) : Graph :=
  if g.HasNode id then g else ⟨g.ordered ++ [id], g.edgeList⟩

/-- `g.AddEdge(from, to)`: adds the dependency edge "from depends on to",
creating both endpoints; ineffective when the edge is already present
(`edges` is a map of sets in Go). -/
def AddEdge (g : Graph) (f t : String) : Graph :=
  let g1 := (g.AddNode f).AddNode t
  if (f, t) ∈ g1.edgeList then g1 else ⟨g1.ordered, g1.edgeList ++ [(f, t)]⟩

/-- `g.NodeCount()`. -/
def NodeCount (g : Graph) : Nat := g.ordered.length

/-- `g.Nodes()`: all node ids in insertion order. -/
def Nodes (g : Graph) : List String := g.ordered

/-- `g.DependenciesOf(id)`: direct dependencies of `id` (the forward index
`edges[id]`). -/
def DependenciesOf (g : Graph) (id : String) : List String :=
  (g.edgeList.filter (fun e => e.1 == id)).map (fun e => e.2)

/-- `g.DependentsOf(id)`: nodes that directly depend on `id` (the reverse index
`reverse[id]`). -/
def DependentsOf (g : Graph) (id : String) : List String :=
  (g.edgeList.filter (fun e => e.2 == id)).map (fun e => e.1)

/-- Representation invariant guaranteed by the Go maps: node list has no
duplicates, the edge set has no duplicates, and every edge endpoint is a
node (`AddEdge` creates endpoints). -/
def WF (g : Graph) : Prop :=
  g.ordered.Nodup ∧ g.edgeList.Nodup ∧
    ∀ e ∈ g.edgeList, e.1 ∈ g.ordered ∧ e.2 ∈ g.ordered

instance : DecidablePred WF := fun g => by unfold WF; infer_instance

/-- `x` transitively (one or more edges) depends on `y`. -/
def DependsOn (g : Graph) (x y : String) : Prop :=
  Relation.TransGen (fun a b => (a, b) ∈ g.edgeList) x y

/-- The graph contains a dependency cycle. -/
def Cyclic (g : Graph) : Prop := ∃ x, g.DependsOn x x

/-- Acyclicity: no node transitively depends on itself. -/
def Acyclic (g : Graph) : Prop := ∀ x, ¬ g.DependsOn x x

/-- Insert into a `strLe`-sorted list (model of `sort.Strings`). -/
def insertSorted (x : String) : List String → List String
  | [] => [x]
  | y :: ys => if strLe x y then x :: y :: ys else y :: insertSorted x ys

/-- Sort a list of node ids lexicographically (`sort.Strings`). -/
def sortStrings (l : List String) : List String := l.foldr insertSorted []

/-- Inner loop of the BFS in `TransitiveDependentsOf`: scan the dependents of
the current node, and push each not-yet-visited one onto visited set, queue and
result (in that discovery order). -/
def bfsVisit (deps : List String) (visited queue result : List String) :
    List String × List String × List String :=
  deps.foldl
    (fun st dep =>
      if dep ∈ st.1 then st
      else (dep :: st.1, st.2.1 ++ [dep], st.2.2 ++ [dep]))
    (visited, queue, result)

/-- Outer BFS loop of `TransitiveDependentsOf` (fuel bounds the number of
dequeues; each node is enqueued at most once). -/
def bfsLoop (g : Graph) : Nat → List String → List String → List String → List String
  | 0, _, _, result => result
  | fuel + 1, visited, queue, result =>
    match queue with
    | [] => result
    | node :: rest =>
      let st := bfsVisit (g.DependentsOf node) visited rest result
      bfsLoop g fuel st.1 st.2.1 st.2.2

/-- `g.TransitiveDependentsOf(id)`: BFS over reverse edges from `id`
(excluding `id`), result sorted. Returns `[]` when `id` is not a node. -/
def TransitiveDependentsOf (g : Graph) (id : String) : List String :=
  if g.HasNode id then
    sortStrings (bfsLoop g (g.edgeList.length + 1) [id] [id] [])
  else []

/-- Cycle reconstruction in `detectCycle`: walk parent pointers from `cur`
up to `dep`, appending each parent (the while-loop; fuel bounds the chain). -/
def buildCycle (par : String → String) : Nat → String → String → List String → List String
  | 0, _, _, acc => acc
  | fuel + 1, dep, cur, acc =>
    if cur = dep then acc
    else buildCycle par fuel dep (par cur) (acc ++ [par cur])

mutual

/-- Body of `dfs(node)` in `detectCycle`: colour `node` gray, scan its
dependencies, then colour it black.  State is (colors, parent); colours are
the Go constants 0 = white, 1 = gray, 2 = black; a found cycle short-circuits. -/
def dfsA (g : Graph) (fuel : Nat) (colors : String → Nat) (par : String → String)
    (node : String) : ((String → Nat) × (String → String)) × Option (List String) :=
  match fuel with
  | 0 => ((colors, par), none)
  | fuel + 1 =>
    let colors1 := fun x => if x = node then 1 else colors x
    match dfsDeps g fuel colors1 par node (g.DependenciesOf node) with
    | (st, some c) => (st, some c)
    | ((c2, p2), none) => ((fun x => if x = node then 2 else c2 x, p2), none)
termination_by (fuel, 0)

/-- The `for dep := range g.edges[node]` loop of `dfs`: a gray dependency
yields the reconstructed cycle (reversed, as in the source); a white one is
recursed into after recording its parent. -/
def dfsDeps (g : Graph) (fuel : Nat) (colors : String → Nat) (par : String → String)
    (node : String) (deps : List String) :
    ((String → Nat) × (String → String)) × Option (List String) :=
  match deps with
  | [] => ((colors, par), none)
  | dep :: rest =>
    if colors dep = 1 then
      ((colors, par),
        some ((buildCycle par (g.ordered.length + 1) dep node [dep, node]).reverse))
    else if colors dep = 0 then
      let par1 := fun x => if x = dep then node else par x
      match dfsA g fuel colors par1 dep with
      | (st, some c) => (st, some c)
      | ((c2, p2), none) => dfsDeps g fuel c2 p2 node rest
    else dfsDeps g fuel colors par node rest
termination_by (fuel, deps.length + 1)

end

/-- Outer loop of `detectCycle`: DFS from every still-white node in insertion
order; `["unknown cycle"]` if no cycle was found. -/
def detectLoop (g : Graph) : List String → (String → Nat) → (String → String) → List String
  | [], _, _ => ["unknown cycle"]
  | id :: rest, colors, par =>
    if colors id = 0 then
      match dfsA g (g.ordered.length + 1) colors par id with
      | (_, some c) => c
      | ((c2, p2), none) => detectLoop g rest c2 p2
    else detectLoop g rest colors par

/-- `g.detectCycle()`: find one concrete cycle by DFS with white/gray/black
colouring and parent back-pointers. -/
def detectCycle (g : Graph) : List String :=
  detectLoop g g.ordered (fun _ => 0) (fun _ => "")

/-- Initial in-degrees for Kahn's algorithm: `inDegree[id] = len(g.edges[id])`
(number of dependencies; Go `int` modelled as `Int`). -/
def initInDegree (g : Graph) : String → Int :=
  fun id => ((g.DependenciesOf id).length : Int)

/-- Shared peeling step of `TopologicalSort` and `Layers`: for every node that
depends on the finished `node`, decrement its in-degree and enqueue it when it
reaches zero. -/
def peel (g : Graph) (st : (String → Int) × List String) (node : String) :
    (String → Int) × List String :=
  (g.DependentsOf node).foldl
    (fun st2 dependent =>
      let d := st2.1 dependent - 1
      let f := fun x => if x = dependent then d else st2.1 x
      if d = 0 then (f, st2.2 ++ [dependent]) else (f, st2.2))
    st

/-- Queue loop of Kahn's algorithm in `TopologicalSort`. -/
def kahnLoop (g : Graph) : Nat → (String → Int) → List String → List String → List String
  | 0, _, _, sorted => sorted
  | fuel + 1, inDeg, queue, sorted =>
    match queue with
    | [] => sorted
    | node :: rest =>
      let st := peel g (inDeg, rest) node
      kahnLoop g fuel st.1 st.2 (sorted ++ [node])

/-- `g.TopologicalSort()`: Kahn's algorithm seeded with the in-degree-zero
nodes in insertion order; a shortfall means a cycle, reported via
`detectCycle` (the error payload is the cycle path). -/
def TopologicalSort (g : Graph) : Except (List String) (List String) :=
  let inDeg := initInDegree g
  let queue := g.ordered.filter (fun id => inDeg id == 0)
  let sorted := kahnLoop g (g.ordered.length + 1) inDeg queue []
  if sorted.length = g.ordered.length then .ok sorted
  else .error (g.detectCycle)

/-- Wave loop of `Layers`: emit the current in-degree-zero wave as one layer,
then peel all its members to collect the next wave. -/
def layersLoop (g : Graph) :
    Nat → (String → Int) → List String → List (List String) → List (List String)
  | 0, _, _, acc => acc
  | fuel + 1, inDeg, current, acc =>
    match current with
    | [] => acc
    | _ =>
      let st := current.foldl (fun st2 node => peel g st2 node) (inDeg, [])
      layersLoop g fuel st.1 st.2 (acc ++ [current])

/-- `g.Layers()`: nodes grouped by dependency depth; a shortfall in the number
of emitted nodes means a cycle, reported via `detectCycle`. -/
def Layers (g : Graph) : Except (List String) (List (List String)) :=
  let inDeg := initInDegree g
  let current := g.ordered.filter (fun id => inDeg id == 0)
  let layers := layersLoop g (g.ordered.length + 1) inDeg current []
  if layers.flatten.length = g.ordered.length then .ok layers
  else .error (g.detectCycle)

end Graph

/-- Set insertion used to model Go's `map[string]bool` accumulation. -/
def setInsert (acc : List String) (x : String) : List String :=
  if x ∈ acc then acc else acc ++ [x]

/-- `build.TransitiveClosure(g, changed)`: start from the directly changed
repos, then add every transitive dependent of each changed repo.  Go sets are
modelled as duplicate-free accumulation into a list. -/
def TransitiveClosure (g : Graph) (changed : List String) : List String :=
  let affected := changed.foldl setInsert []
  changed.foldl
    (fun acc repo => (g.TransitiveDependentsOf repo).foldl setInsert acc) affected

namespace Graph

lemma mem_DependentsOf {g : Graph} {d id : String} :
    d ∈ g.DependentsOf id ↔ (d, id) ∈ g.edgeList := by
  unfold DependentsOf
  constructor
  · rintro h
    obtain ⟨⟨a, b⟩, hab, rfl⟩ := List.mem_map.mp h
    obtain ⟨hmem, hb⟩ := List.mem_filter.mp hab
    have hb' : b = id := by simpa using hb
    subst hb'; exact hmem
  · intro h
    exact List.mem_map.mpr ⟨(d, id), List.mem_filter.mpr ⟨h, by simp⟩, rfl⟩

lemma mem_DependenciesOf {g : Graph} {d id : String} :
    d ∈ g.DependenciesOf id ↔ (id, d) ∈ g.edgeList := by
  unfold DependenciesOf
  constructor
  · rintro h
    obtain ⟨⟨a, b⟩, hab, rfl⟩ := List.mem_map.mp h
    obtain ⟨hmem, hb⟩ := List.mem_filter.mp hab
    have hb' : a = id := by simpa using hb
    subst hb'; exact hmem
  · intro h
    exact List.mem_map.mpr ⟨(id, d), List.mem_filter.mpr ⟨h, by simp⟩, rfl⟩

/-- Reverse-edge reachability used by the BFS: `x` is reachable from `s`
following dependent links. -/
def RevReach (g : Graph) (s x : String) : Prop :=
  Relation.ReflTransGen (fun a b => (b, a) ∈ g.edgeList) s x

lemma revReach_iff_dependsOn {g : Graph} {s x : String} :
    g.RevReach s x ↔ (x = s ∨ g.DependsOn x s) := by
  unfold RevReach DependsOn
  rw [Relation.reflTransGen_iff_eq_or_transGen]
  constructor
  · rintro (rfl | h)
    · exact Or.inl rfl
    · exact Or.inr ((Relation.transGen_swap).mp h)
  · rintro (rfl | h)
    · exact Or.inl rfl
    · exact Or.inr ((Relation.transGen_swap).mpr h)

/-- Characterisation of the inner scan: it renames to appending a block `a` of
the fresh dependents to visited set, queue and result alike. -/
lemma bfsVisit_spec (deps : List String) :
    ∀ visited queue result, ∃ a : List String,
      bfsVisit deps visited queue result = (a.reverse ++ visited, queue ++ a, result ++ a) ∧
      a.Nodup ∧ ∀ x, x ∈ a ↔ x ∈ deps ∧ x ∉ visited := by
  induction deps with
  | nil =>
    intro visited queue result
    exact ⟨[], by simp [bfsVisit], by simp, by simp⟩
  | cons dep rest ih =>
    intro visited queue result
    by_cases hv : dep ∈ visited
    · obtain ⟨a, ha, hnd, hmem⟩ := ih visited queue result
      refine ⟨a, ?_, hnd, ?_⟩
      · simpa [bfsVisit, hv] using ha
      · intro x
        rw [hmem x]
        constructor
        · rintro ⟨hx, hnx⟩; exact ⟨List.mem_cons_of_mem _ hx, hnx⟩
        · rintro ⟨hx, hnx⟩
          rcases List.mem_cons.mp hx with rfl | hx
          · exact absurd hv hnx
          · exact ⟨hx, hnx⟩
    · obtain ⟨a, ha, hnd, hmem⟩ := ih (dep :: visited) (queue ++ [dep]) (result ++ [dep])
      refine ⟨dep :: a, ?_, ?_, ?_⟩
      · simpa [bfsVisit, hv, List.append_assoc] using ha
      · refine List.nodup_cons.mpr ⟨fun hda => ?_, hnd⟩
        exact ((hmem dep).mp hda).2 (List.mem_cons_self _ _)
      · intro x
        constructor
        · rintro hx
          rcases List.mem_cons.mp hx with rfl | hx
          · exact ⟨List.mem_cons_self _ _, hv⟩
          · obtain ⟨h1, h2⟩ := (hmem x).mp hx
            exact ⟨List.mem_cons_of_mem _ h1, fun hvx => h2 (List.mem_cons_of_mem _ hvx)⟩
        · rintro ⟨hx, hnx⟩
          rcases List.mem_cons.mp hx with rfl | hx
          · exact List.mem_cons_self _ _
          · by_cases hxd : x = dep
            · subst hxd; exact List.mem_cons_self _ _
            · exact List.mem_cons_of_mem _
                ((hmem x).mpr ⟨hx, by simp [List.mem_cons, hxd, hnx]⟩)

/-- If the processed part of the visited set is closed under dependents, any
reverse-reachability path from a visited node is absorbed: it ends inside the
visited set or passes through a queued node. -/
lemma revReach_absorb {g : Graph} {visited queue : List String}
    (closed : ∀ v ∈ visited, v ∉ queue → ∀ d ∈ g.DependentsOf v, d ∈ visited)
    {q x : String} (hq : q ∈ visited) (hr : g.RevReach q x) :
    x ∈ visited ∨ ∃ q' ∈ queue, q' ∈ visited ∧ g.RevReach q' x := by
  suffices h : ∀ {a : String}, g.RevReach a x → a ∈ visited →
      (x ∈ visited ∨ ∃ q' ∈ queue, q' ∈ visited ∧ g.RevReach q' x) from h hr hq
  intro a hra
  unfold RevReach at hra
  induction hra using Relation.ReflTransGen.head_induction_on with
  | refl => exact fun h => Or.inl h
  | @head a c hab hcx ih =>
    intro ha
    by_cases haq : a ∈ queue
    · exact Or.inr ⟨a, haq, ha, Relation.ReflTransGen.head hab hcx⟩
    · exact ih (closed a ha haq c (mem_DependentsOf.mpr hab))

/-- Universe of ids the BFS can ever visit: the start plus all dependents. -/
def bfsUniv (g : Graph) (start : String) : List String :=
  start :: g.edgeList.map (fun e => e.1)

/-- Main BFS loop invariant proof: with enough fuel, the output collects
`result` plus everything newly reverse-reachable through the queue. -/
lemma bfsLoop_mem (g : Graph) (start : String) :
    ∀ (fuel : Nat) (visited queue result : List String),
      visited.Nodup →
      (∀ q ∈ queue, q ∈ visited) →
      (∀ v ∈ visited, v ∈ bfsUniv g start) →
      queue.length + (bfsUniv g start).length ≤ fuel + visited.length →
      (∀ v ∈ visited, v ∉ queue → ∀ d ∈ g.DependentsOf v, d ∈ visited) →
      ∀ x, x ∈ bfsLoop g fuel visited queue result ↔
        x ∈ result ∨ (x ∉ visited ∧ ∃ q ∈ queue, g.RevReach q x) := by
  intro fuel
  induction fuel with
  | zero =>
    intro visited queue result hnd hqv hvU hm _ x
    have hvlen : visited.length ≤ (bfsUniv g start).length :=
      (List.subperm_of_subset hnd hvU).length_le
    have hq0 : queue.length = 0 := by omega
    rw [List.length_eq_zero] at hq0
    subst hq0
    simp [bfsLoop]
  | succ fuel ih =>
    intro visited queue result hnd hqv hvU hm hclosed x
    match queue with
    | [] => simp [bfsLoop]
    | node :: rest =>
      obtain ⟨a, ha, hand, hamem⟩ := bfsVisit_spec (g.DependentsOf node) visited rest result
      have hstep : bfsLoop g (fuel + 1) visited (node :: rest) result =
          bfsLoop g fuel (a.reverse ++ visited) (rest ++ a) (result ++ a) := by
        simp only [bfsLoop, ha]
      have hnode_mem : node ∈ visited := hqv node (List.mem_cons_self _ _)
      -- invariants for the next state
      have hnd' : (a.reverse ++ visited).Nodup := by
        rw [List.nodup_append]
        exact ⟨List.nodup_reverse.mpr hand, hnd,
          fun y hy hyv => ((hamem y).mp (List.mem_reverse.mp hy)).2 hyv⟩
      have hqv' : ∀ q ∈ rest ++ a, q ∈ a.reverse ++ visited := by
        intro q hq
        rcases List.mem_append.mp hq with hq | hq
        · exact List.mem_append.mpr (Or.inr (hqv q (List.mem_cons_of_mem _ hq)))
        · exact List.mem_append.mpr (Or.inl (List.mem_reverse.mpr hq))
      have hvU' : ∀ v ∈ a.reverse ++ visited, v ∈ bfsUniv g start := by
        intro v hv
        rcases List.mem_append.mp hv with hv | hv
        · have hva := (hamem v).mp (List.mem_reverse.mp hv)
          have : (v, node) ∈ g.edgeList := mem_DependentsOf.mp hva.1
          exact List.mem_cons_of_mem _ (List.mem_map.mpr ⟨(v, node), this, rfl⟩)
        · exact hvU v hv
      have hm' : (rest ++ a).length + (bfsUniv g start).length ≤
          fuel + (a.reverse ++ visited).length := by
        simp only [List.length_append, List.length_reverse, List.length_cons] at *
        omega
      have hclosed' : ∀ v ∈ a.reverse ++ visited, v ∉ rest ++ a →
          ∀ d ∈ g.DependentsOf v, d ∈ a.reverse ++ visited := by
        intro v hv hvq d hd
        rcases List.mem_append.mp hv with hva | hvv
        · exact absurd (List.mem_append.mpr (Or.inr (List.mem_reverse.mp hva))) hvq
        · by_cases hvn : v = node
          · subst hvn
            by_cases hdv : d ∈ visited
            · exact List.mem_append.mpr (Or.inr hdv)
            · exact List.mem_append.mpr
                (Or.inl (List.mem_reverse.mpr ((hamem d).mpr ⟨hd, hdv⟩)))
          · have hvrest : v ∉ rest := fun h => hvq (List.mem_append.mpr (Or.inl h))
            have : v ∉ node :: rest := by
              simp [List.mem_cons, hvn, hvrest]
            exact List.mem_append.mpr (Or.inr (hclosed v hvv this d hd))
      rw [hstep, ih _ _ _ hnd' hqv' hvU' hm' hclosed']
      constructor
      · rintro (hr | ⟨hxv, q, hq, hrq⟩)
        · rcases List.mem_append.mp hr with hr | hra
          · exact Or.inl hr
          · obtain ⟨hdep, hxv⟩ := (hamem x).mp hra
            exact Or.inr ⟨hxv, node, List.mem_cons_self _ _,
              Relation.ReflTransGen.single (mem_DependentsOf.mp hdep)⟩
        · have hxvis : x ∉ visited := fun h => hxv (List.mem_append.mpr (Or.inr h))
          rcases List.mem_append.mp hq with hq | hqa
          · exact Or.inr ⟨hxvis, q, List.mem_cons_of_mem _ hq, hrq⟩
          · have hdep := (hamem q).mp hqa
            exact Or.inr ⟨hxvis, node, List.mem_cons_self _ _,
              Relation.ReflTransGen.head (mem_DependentsOf.mp hdep.1) hrq⟩
      · rintro (hr | ⟨hxv, q, hq, hrq⟩)
        · exact Or.inl (List.mem_append.mpr (Or.inl hr))
        · have hqvis : q ∈ a.reverse ++ visited :=
            List.mem_append.mpr (Or.inr (hqv q hq))
          by_cases hxv' : x ∈ a.reverse ++ visited
          · rcases List.mem_append.mp hxv' with hxa | hxvv
            · exact Or.inl (List.mem_append.mpr (Or.inr (List.mem_reverse.mp hxa)))
            · exact absurd hxvv hxv
          · rcases revReach_absorb hclosed' hqvis hrq with hin | ⟨q', hq', hq'v, hrq'⟩
            · exact absurd hin hxv'
            · exact Or.inr ⟨hxv', q', hq', hrq'⟩

/-- The BFS output has no duplicates. -/
lemma bfsLoop_nodup (g : Graph) :
    ∀ (fuel : Nat) (visited queue result : List String),
      result.Nodup → (∀ r ∈ result, r ∈ visited) →
      (bfsLoop g fuel visited queue result).Nodup ∧
        ∀ r ∈ bfsLoop g fuel visited queue result, r ∈ visited ∨ r ∉ result := by
  intro fuel
  induction fuel with
  | zero =>
    intro visited queue result hnd hrv
    exact ⟨hnd, fun r hr => Or.inl (hrv r hr)⟩
  | succ fuel ih =>
    intro visited queue result hnd hrv
    match queue with
    | [] => exact ⟨hnd, fun r hr => Or.inl (hrv r hr)⟩
    | node :: rest =>
      obtain ⟨a, ha, hand, hamem⟩ := bfsVisit_spec (g.DependentsOf node) visited rest result
      have hstep : bfsLoop g (fuel + 1) visited (node :: rest) result =
          bfsLoop g fuel (a.reverse ++ visited) (rest ++ a) (result ++ a) := by
        simp only [bfsLoop, ha]
      rw [hstep]
      have hnd' : (result ++ a).Nodup := by
        rw [List.nodup_append]
        exact ⟨hnd, hand, fun y hy hya => ((hamem y).mp hya).2 (hrv y hy)⟩
      have hrv' : ∀ r ∈ result ++ a, r ∈ a.reverse ++ visited := by
        intro r hr
        rcases List.mem_append.mp hr with hr | hr
        · exact List.mem_append.mpr (Or.inr (hrv r hr))
        · exact List.mem_append.mpr (Or.inl (List.mem_reverse.mpr hr))
      obtain ⟨h1, h2⟩ := ih (a.reverse ++ visited) (rest ++ a) (result ++ a) hnd' hrv'
      refine ⟨h1, fun r hr => ?_⟩
      rcases h2 r hr with h | h
      · rcases List.mem_append.mp h with h | h
        · by_cases hrres : r ∈ result
          · exact Or.inl (hrv r hrres)
          · exact Or.inr hrres
        · exact Or.inl h
      · exact Or.inr (fun hrr => h (List.mem_append.mpr (Or.inl hrr)))

end Graph

lemma strLeChars_total : ∀ cs ds, strLeChars cs ds = true ∨ strLeChars ds cs = true := by
  intro cs
  induction cs with
  | nil => intro ds; exact Or.inl rfl
  | cons c cs ih =>
    intro ds
    cases ds with
    | nil => exact Or.inr rfl
    | cons d ds =>
      by_cases h1 : c.val.toNat < d.val.toNat
      · left; simp [strLeChars, h1]
      · by_cases h2 : d.val.toNat < c.val.toNat
        · right; simp [strLeChars, h2]
        · rcases ih ds with h | h
          · left; simpa [strLeChars, h1, h2] using h
          · right; simpa [strLeChars, h1, h2] using h

lemma strLeChars_cons_le {c d : Char} {cs ds : List Char}
    (h : strLeChars (c :: cs) (d :: ds) = true) :
    c.val.toNat < d.val.toNat ∨
      (c.val.toNat = d.val.toNat ∧ strLeChars cs ds = true) := by
  by_cases h1 : c.val.toNat < d.val.toNat
  · exact Or.inl h1
  · by_cases h2 : d.val.toNat < c.val.toNat
    · simp [strLeChars, h1, h2] at h
    · exact Or.inr ⟨by omega, by simpa [strLeChars, h1, h2] using h⟩

lemma strLeChars_cons_intro {c d : Char} {cs ds : List Char}
    (h : c.val.toNat < d.val.toNat ∨
      (c.val.toNat = d.val.toNat ∧ strLeChars cs ds = true)) :
    strLeChars (c :: cs) (d :: ds) = true := by
  rcases h with h | ⟨heq, ht⟩
  · simp [strLeChars, h]
  · unfold strLeChars
    rw [if_neg (by omega), if_neg (by omega)]
    exact ht

lemma strLeChars_trans :
    ∀ cs ds es, strLeChars cs ds = true → strLeChars ds es = true →
      strLeChars cs es = true := by
  intro cs
  induction cs with
  | nil => intro ds es _ _; rfl
  | cons c cs ih =>
    intro ds es h1 h2
    cases ds with
    | nil => simp [strLeChars] at h1
    | cons d ds =>
      cases es with
      | nil => simp [strLeChars] at h2
      | cons e es =>
        rcases strLeChars_cons_le h1 with hcd | ⟨hcd,ht1⟩ <;>
          rcases strLeChars_cons_le h2 with hde | ⟨hde, ht2⟩
        · exact strLeChars_cons_intro (Or.inl (by omega))
        · exact strLeChars_cons_intro (Or.inl (by omega))
        · exact strLeChars_cons_intro (Or.inl (by omega))
        · exact strLeChars_cons_intro (Or.inr ⟨by omega, ih ds es ht1 ht2⟩)

lemma strLe_total (a b : String) : strLe a b = true ∨ strLe b a = true :=
  strLeChars_total a.data b.data

lemma strLe_trans {a b c : String} (h1 : strLe a b = true) (h2 : strLe b c = true) :
    strLe a c = true :=
  strLeChars_trans a.data b.data c.data h1 h2

namespace Graph

lemma insertSorted_perm (x : String) (l : List String) :
    List.Perm (insertSorted x l) (x :: l) := by
  induction l with
  | nil => exact List.Perm.refl _
  | cons y ys ih =>
    unfold insertSorted
    split
    · exact List.Perm.refl _
    · exact (List.Perm.cons y ih).trans (List.Perm.swap x y ys)

lemma mem_insertSorted {x a : String} {l : List String} :
    a ∈ insertSorted x l ↔ a = x ∨ a ∈ l := by
  rw [(insertSorted_perm x l).mem_iff, List.mem_cons]

lemma insertSorted_sorted {x : String} {l : List String}
    (h : l.Pairwise (fun a b => strLe a b = true)) :
    (insertSorted x l).Pairwise (fun a b => strLe a b = true) := by
  induction l with
  | nil => simp [insertSorted]
  | cons y ys ih =>
    rw [List.pairwise_cons] at h
    obtain ⟨hy, hys⟩ := h
    unfold insertSorted
    split
    · rename_i hxy
      refine List.pairwise_cons.mpr ⟨?_, List.pairwise_cons.mpr ⟨hy, hys⟩⟩
      intro b hb
      rcases List.mem_cons.mp hb with rfl | hb
      · exact hxy
      · exact strLe_trans hxy (hy b hb)
    · rename_i hxy
      have hyx : strLe y x = true := by
        rcases strLe_total x y with h | h
        · exact absurd h hxy
        · exact h
      refine List.pairwise_cons.mpr ⟨?_, ih hys⟩
      intro b hb
      rcases mem_insertSorted.mp hb with rfl | hb
      · exact hyx
      · exact hy b hb

lemma sortStrings_perm (l : List String) : List.Perm (sortStrings l) l := by
  induction l with
  | nil => exact List.Perm.refl _
  | cons x xs ih =>
    exact (insertSorted_perm x (sortStrings xs)).trans (List.Perm.cons x ih)

lemma sortStrings_sorted (l : List String) :
    (sortStrings l).Pairwise (fun a b => strLe a b = true) := by
  induction l with
  | nil => simp [sortStrings]
  | cons x xs ih => exact insertSorted_sorted ih

/-- Semantic characterisation of `TransitiveDependentsOf` on well-formed
graphs: membership is exactly strict transitive dependence. -/
lemma mem_TransitiveDependentsOf {g : Graph} (hg : g.WF) (id x : String) :
    x ∈ g.TransitiveDependentsOf id ↔ x ≠ id ∧ g.DependsOn x id := by
  unfold TransitiveDependentsOf
  split
  · rename_i hid
    rw [(sortStrings_perm _).mem_iff]
    rw [bfsLoop_mem g id (g.edgeList.length + 1) [id] [id] []
        (List.nodup_singleton id) (by intro q hq; exact hq)
        (by intro v hv; simp at hv; subst hv; exact List.mem_cons_self _ _)
        (by simp only [bfsUniv, List.length_cons, List.length_map,
              List.length_singleton]; omega)
        (by intro v hv hvq; exact absurd hv hvq)]
    constructor
    · rintro (h | ⟨hx, q, hq, hrq⟩)
      · simp at h
      · have hx' : x ≠ id := by simpa using hx
        have hq' : q = id := by simpa using hq
        subst hq'
        rcases revReach_iff_dependsOn.mp hrq with rfl | hdep
        · exact absurd rfl hx'
        · exact ⟨hx', hdep⟩
    · rintro ⟨hx, hdep⟩
      exact Or.inr ⟨by simpa using hx, id, by simp,
        revReach_iff_dependsOn.mpr (Or.inr hdep)⟩
  · rename_i hid
    simp only [List.not_mem_nil, false_iff, not_and]
    intro hx hdep
    exfalso
    obtain ⟨b, _, hb⟩ := (Relation.TransGen.tail'_iff).mp hdep
    have := (hg.2.2 (b, id) hb).2
    exact hid (by simpa [HasNode, List.elem_eq_mem] using this)

lemma TransitiveDependentsOf_nodup (g : Graph) (id : String) :
    (g.TransitiveDependentsOf id).Nodup := by
  unfold TransitiveDependentsOf
  split
  · exact (sortStrings_perm _).nodup_iff.mpr
      (bfsLoop_nodup g (g.edgeList.length + 1) [id] [id] [] List.nodup_nil (by simp)).1
  · exact List.nodup_nil

end Graph

section Examples

/-- Chain from the spec: C depends on B, B depends on A. -/
def chainCBA : Graph := ((Graph.new.AddEdge "C" "B").AddEdge "B" "A")

example : chainCBA.TransitiveDependentsOf "A" = ["B", "C"] := by decide
example : chainCBA.TransitiveDependentsOf "C" = [] := by decide
example : chainCBA.TransitiveDependentsOf "X" = [] := by decide
example : TransitiveClosure chainCBA ["A"] = ["A", "B", "C"] := by decide
example : chainCBA.WF := by decide

end Examples

lemma mem_setInsert {acc : List String} {x y : String} :
    y ∈ setInsert acc x ↔ y ∈ acc ∨ y = x := by
  unfold setInsert
  split
  · rename_i h
    constructor
    · exact Or.inl
    · rintro (hy | rfl)
      · exact hy
      · exact h
  · simp

lemma mem_foldl_setInsert (l : List String) :
    ∀ (acc : List String) (y : String),
      y ∈ l.foldl setInsert acc ↔ y ∈ acc ∨ y ∈ l := by
  induction l with
  | nil => simp
  | cons a l ih =>
    intro acc y
    rw [List.foldl_cons, ih, mem_setInsert]
    constructor
    · rintro ((hy | rfl) | hy)
      · exact Or.inl hy
      · exact Or.inr (List.mem_cons_self _ _)
      · exact Or.inr (List.mem_cons_of_mem _ hy)
    · rintro (hy | hy)
      · exact Or.inl (Or.inl hy)
      · rcases List.mem_cons.mp hy with rfl | hy
        · exact Or.inl (Or.inr rfl)
        · exact Or.inr hy

lemma mem_foldl_setInsert_deps (g : Graph) (changed : List String) :
    ∀ (acc : List String) (y : String),
      y ∈ changed.foldl
          (fun acc repo => (g.TransitiveDependentsOf repo).foldl setInsert acc) acc ↔
        y ∈ acc ∨ ∃ c ∈ changed, y ∈ g.TransitiveDependentsOf c := by
  induction changed with
  | nil => simp
  | cons a l ih =>
    intro acc y
    rw [List.foldl_cons, ih, mem_foldl_setInsert]
    constructor
    · rintro ((hy | hy) | ⟨c, hc, hy⟩)
      · exact Or.inl hy
      · exact Or.inr ⟨a, List.mem_cons_self _ _, hy⟩
      · exact Or.inr ⟨c, List.mem_cons_of_mem _ hc, hy⟩
    · rintro (hy | ⟨c, hc, hy⟩)
      · exact Or.inl (Or.inl hy)
      · rcases List.mem_cons.mp hc with rfl | hc
        · exact Or.inl (Or.inr hy)
        · exact Or.inr ⟨c, hc, hy⟩

/-- Membership characterisation of `TransitiveClosure` on well-formed graphs. -/
lemma mem_TransitiveClosure {g : Graph} (hg : g.WF) (changed : List String)
    (x : String) :
    x ∈ TransitiveClosure g changed ↔
      x ∈ changed ∨ ∃ c ∈ changed, x ≠ c ∧ g.DependsOn x c := by
  unfold TransitiveClosure
  rw [mem_foldl_setInsert_deps, mem_foldl_setInsert]
  simp only [List.not_mem_nil, false_or]
  constructor
  · rintro (hx | ⟨c, hc, hx⟩)
    · exact Or.inl hx
    · exact Or.inr ⟨c, hc, (Graph.mem_TransitiveDependentsOf hg c x).mp hx⟩
  · rintro (hx | ⟨c, hc, hx⟩)
    · exact Or.inl hx
    · exact Or.inr ⟨c, hc, (Graph.mem_TransitiveDependentsOf hg c x).mpr hx⟩

lemma TransitiveDependentsOf_sorted (g : Graph) (id : String) :
    (g.TransitiveDependentsOf id).Pairwise (fun a b => strLe a b = true) := by
  unfold Graph.TransitiveDependentsOf
  split
  · exact Graph.sortStrings_sorted _
  · exact List.Pairwise.nil

/-- C7: `TransitiveDependentsOf(id)` returns the lexicographically sorted set
of exactly the nodes that directly or indirectly depend on `id`, never
containing `id` itself; empty when `id` is unknown or has no dependents; on
the chain where C depends on B and B depends on A it returns {B, C} for A and
{} for C. -/
theorem C7_TransitiveDependentsOf_correct (g : Graph) (hg : g.WF) (id : String) :
    (∀ x, x ∈ g.TransitiveDependentsOf id ↔ x ≠ id ∧ g.DependsOn x id) ∧
    (g.TransitiveDependentsOf id).Pairwise (fun a b => strLe a b = true) ∧
    (g.TransitiveDependentsOf id).Nodup ∧
    (¬ g.HasNode id = true → g.TransitiveDependentsOf id = []) ∧
    chainCBA.TransitiveDependentsOf "A" = ["B", "C"] ∧
    chainCBA.TransitiveDependentsOf "C" = [] := by
  refine ⟨Graph.mem_TransitiveDependentsOf hg id,
    TransitiveDependentsOf_sorted g id,
    Graph.TransitiveDependentsOf_nodup g id,
    fun h => ?_, by decide, by decide⟩
  unfold Graph.TransitiveDependentsOf
  rw [if_neg h]

theorem C7_witness :
    chainCBA.WF ∧ chainCBA.TransitiveDependentsOf "A" = ["B", "C"] :=
  ⟨by decide, (C7_TransitiveDependentsOf_correct chainCBA (by decide) "A").2.2.2.2.1⟩

/-- C1: `TransitiveClosure(g, C)` equals `C` united with the transitive
dependents of every member of `C`; as a set union it is idempotent and
independent of the iteration order of the changed set. -/
theorem C1_TransitiveClosure_correct (g : Graph) (hg : g.WF) (changed : List String) :
    (∀ x, x ∈ TransitiveClosure g changed ↔
        x ∈ changed ∨ ∃ c ∈ changed, x ≠ c ∧ g.DependsOn x c) ∧
    (∀ x, x ∈ TransitiveClosure g (TransitiveClosure g changed) ↔
        x ∈ TransitiveClosure g changed) ∧
    (∀ changed', List.Perm changed' changed →
        ∀ x, x ∈ TransitiveClosure g changed' ↔ x ∈ TransitiveClosure g changed) := by
  refine ⟨mem_TransitiveClosure hg changed, ?_, ?_⟩
  · intro x
    rw [mem_TransitiveClosure hg]
    constructor
    · rintro (hx | ⟨c, hc, hxc, hdep⟩)
      · exact hx
      · rw [mem_TransitiveClosure hg] at hc ⊢
        rcases hc with hc | ⟨c', hc', hcc', hdep'⟩
        · exact Or.inr ⟨c, hc, hxc, hdep⟩
        · by_cases hxc' : x = c'
          · subst hxc'; exact Or.inl hc'
          · exact Or.inr ⟨c', hc', hxc', hdep.trans hdep'⟩
    · exact Or.inl
  · intro changed' hperm x
    rw [mem_TransitiveClosure hg, mem_TransitiveClosure hg]
    constructor
    · rintro (hx | ⟨c, hc, hxc, hdep⟩)
      · exact Or.inl (hperm.mem_iff.mp hx)
      · exact Or.inr ⟨c, hperm.mem_iff.mp hc, hxc, hdep⟩
    · rintro (hx | ⟨c, hc, hxc, hdep⟩)
      · exact Or.inl (hperm.mem_iff.mpr hx)
      · exact Or.inr ⟨c, hperm.mem_iff.mpr hc, hxc, hdep⟩

theorem C1_witness :
    chainCBA.WF ∧
      ("C" ∈ TransitiveClosure chainCBA ["A"] ↔
        "C" ∈ ["A"] ∨ ∃ c ∈ ["A"], "C" ≠ c ∧ chainCBA.DependsOn "C" c) :=
  ⟨by decide, (C1_TransitiveClosure_correct chainCBA (by decide) ["A"]).1 "C"⟩

/-- `build.BuildState`: last build result for a single repository.  The Go
struct also carries `LastBuildTime` and `ArtifactVersion`; wall-clock
timestamps and the unused artifact version are not modelled. -/
structure BuildState where
  lastBuildSHA : String
  status : String
  errText : String
deriving DecidableEq, Repr

/-- `build.BuildManifest`: map from repo name to its build state, modelled as
an association list (map iteration order is never observed). -/
structure BuildManifest where
  repos : List (String × BuildState)
deriving DecidableEq, Repr

namespace BuildManifest

/-- `build.NewManifest()` (fresh empty map; version/timestamps not modelled). -/
def NewManifest : BuildManifest := ⟨[]⟩

/-- `m.LastSHA(repo)`: last recorded SHA, or `""` if the repo is unknown. -/
def LastSHA (m : BuildManifest) (repo : String) : String :=
  match m.repos.lookup repo with
  | none => ""
  | some bs => bs.lastBuildSHA

/-- `m.ensureState(repo)`: existing state or a fresh pending one. -/
def ensureState (m : BuildManifest) (repo : String) : BuildState :=
  (m.repos.lookup repo).getD ⟨"", "pending", ""⟩

/-- Write-back of a repo's state into the map. -/
def setState (m : BuildManifest) (repo : String) (bs : BuildState) : BuildManifest :=
  ⟨(repo, bs) :: m.repos.filter (fun p => p.1 != repo)⟩

/-- `m.MarkSuccess(repo, sha)`: record a successful build. -/
def MarkSuccess (m : BuildManifest) (repo sha : String) : BuildManifest :=
  let bs := m.ensureState repo
  m.setState repo { bs with lastBuildSHA := sha, status := "success", errText := "" }

/-- `m.MarkFailed(repo, sha, buildErr)`: record a failed build (the error text
is set only when an error value is present, as in the Go source). -/
def MarkFailed (m : BuildManifest) (repo sha : String) (buildErr : Option String) :
    BuildManifest :=
  let bs := m.ensureState repo
  m.setState repo
    { bs with
      lastBuildSHA := sha
      status := "failed"
      errText := match buildErr with | some e => e | none => bs.errText }

end BuildManifest

/-- External collaborators of `build.DetectChanges`: whether a repo directory
is materialized on disk (`os.Stat`), and `git.HeadSHA` (`none` models a read
error). -/
structure ChangeEnv where
  materialized : String → Bool
  headSHA : String → Option String

/-- `build.DetectChanges(g, reposDir, manifest)`: walk the graph nodes; skip
repos that are not cloned; treat an unreadable SHA as changed; otherwise a
repo is changed when the manifest has no SHA or a different one. -/
def DetectChanges (g : Graph) (env : ChangeEnv) (m : BuildManifest) : List String :=
  g.Nodes.foldl
    (fun changed repo =>
      if env.materialized repo = false then changed
      else
        match env.headSHA repo with
        | none => setInsert changed repo
        | some cur =>
          if m.LastSHA repo = "" ∨ m.LastSHA repo ≠ cur then setInsert changed repo
          else changed)
    []

/-- The per-repo "marked changed" condition of `DetectChanges`. -/
def changeCond (env : ChangeEnv) (m : BuildManifest) (repo : String) : Prop :=
  env.materialized repo = true ∧
    (env.headSHA repo = none ∨
      ∃ cur, env.headSHA repo = some cur ∧ (m.LastSHA repo = "" ∨ m.LastSHA repo ≠ cur))

lemma mem_DetectChanges_foldl (env : ChangeEnv) (m : BuildManifest) :
    ∀ (nodes acc : List String) (y : String),
      (y ∈ nodes.foldl
        (fun changed repo =>
          if env.materialized repo = false then changed
          else
            match env.headSHA repo with
            | none => setInsert changed repo
            | some cur =>
              if m.LastSHA repo = "" ∨ m.LastSHA repo ≠ cur then setInsert changed repo
              else changed)
        acc) ↔
      y ∈ acc ∨ (y ∈ nodes ∧ changeCond env m y) := by
  intro nodes
  induction nodes with
  | nil => simp
  | cons a l ih =>
    intro acc y
    rw [List.foldl_cons, ih]
    by_cases hmat : env.materialized a = false
    · rw [if_pos hmat]
      constructor
      · rintro (hy | ⟨hyl, hc⟩)
        · exact Or.inl hy
        · exact Or.inr ⟨List.mem_cons_of_mem _ hyl, hc⟩
      · rintro (hy | ⟨hyl, hc⟩)
        · exact Or.inl hy
        · rcases List.mem_cons.mp hyl with rfl | hyl
          · rw [hc.1] at hmat; cases hmat
          · exact Or.inr ⟨hyl, hc⟩
    · rw [if_neg hmat]
      have hmat' : env.materialized a = true := by
        cases h : env.materialized a
        · exact absurd h hmat
        · rfl
      rcases hsha : env.headSHA a with _ | cur
      · simp only [mem_setInsert]
        constructor
        · rintro ((hy | rfl) | ⟨hyl, hc⟩)
          · exact Or.inl hy
          · exact Or.inr ⟨List.mem_cons_self _ _, hmat', Or.inl hsha⟩
          · exact Or.inr ⟨List.mem_cons_of_mem _ hyl, hc⟩
        · rintro (hy | ⟨hyl, hc⟩)
          · exact Or.inl (Or.inl hy)
          · rcases List.mem_cons.mp hyl with rfl | hyl
            · exact Or.inl (Or.inr rfl)
            · exact Or.inr ⟨hyl, hc⟩
      · show (y ∈ if m.LastSHA a = "" ∨ m.LastSHA a ≠ cur then setInsert acc a else acc) ∨
            (y ∈ l ∧ changeCond env m y) ↔
            y ∈ acc ∨ (y ∈ a :: l ∧ changeCond env m y)
        by_cases hdiff : m.LastSHA a = "" ∨ m.LastSHA a ≠ cur
        · rw [if_pos hdiff]
          simp only [mem_setInsert]
          constructor
          · rintro ((hy | rfl) | ⟨hyl, hc⟩)
            · exact Or.inl hy
            · exact Or.inr ⟨List.mem_cons_self _ _, hmat', Or.inr ⟨cur, hsha, hdiff⟩⟩
            · exact Or.inr ⟨List.mem_cons_of_mem _ hyl, hc⟩
          · rintro (hy | ⟨hyl, hc⟩)
            · exact Or.inl (Or.inl hy)
            · rcases List.mem_cons.mp hyl with rfl | hyl
              · exact Or.inl (Or.inr rfl)
              · exact Or.inr ⟨hyl, hc⟩
        · rw [if_neg hdiff]
          constructor
          · rintro (hy | ⟨hyl, hc⟩)
            · exact Or.inl hy
            · exact Or.inr ⟨List.mem_cons_of_mem _ hyl, hc⟩
          · rintro (hy | ⟨hyl, hc⟩)
            · exact Or.inl hy
            · rcases List.mem_cons.mp hyl with rfl | hyl
              · rcases hc.2 with hnone | ⟨cur', hsome, hd⟩
                · rw [hsha] at hnone; cases hnone
                · rw [hsha] at hsome
                  cases hsome
                  exact absurd hd hdiff
              · exact Or.inr ⟨hyl, hc⟩

/-- Membership characterisation of `DetectChanges`. -/
lemma mem_DetectChanges (g : Graph) (env : ChangeEnv) (m : BuildManifest)
    (repo : String) :
    repo ∈ DetectChanges g env m ↔ repo ∈ g.Nodes ∧ changeCond env m repo := by
  unfold DetectChanges
  rw [mem_DetectChanges_foldl]
  simp

/-- C5: change detection marks exactly: never a non-materialized node; always
a materialized node with unreadable fingerprint; otherwise a graph node iff
the manifest SHA is absent or differs from the live one. -/
theorem C5_DetectChanges_correct (g : Graph) (env : ChangeEnv) (m : BuildManifest)
    (repo : String) :
    (env.materialized repo = false → repo ∉ DetectChanges g env m) ∧
    (repo ∈ g.Nodes → env.materialized repo = true → env.headSHA repo = none →
      repo ∈ DetectChanges g env m) ∧
    (∀ cur, env.headSHA repo = some cur →
      (repo ∈ DetectChanges g env m ↔
        repo ∈ g.Nodes ∧ env.materialized repo = true ∧
          (m.LastSHA repo = "" ∨ m.LastSHA repo ≠ cur))) := by
  refine ⟨?_, ?_, ?_⟩
  · intro hmat hmem
    obtain ⟨_, hcond⟩ := (mem_DetectChanges g env m repo).mp hmem
    rw [hcond.1] at hmat
    cases hmat
  · intro hmem hmat hsha
    exact (mem_DetectChanges g env m repo).mpr ⟨hmem, hmat, Or.inl hsha⟩
  · intro cur hsha
    rw [mem_DetectChanges]
    unfold changeCond
    constructor
    · rintro ⟨hmem, hmat, hnone | ⟨cur', hsome, hd⟩⟩
      · rw [hsha] at hnone; cases hnone
      · rw [hsha] at hsome
        cases hsome
        exact ⟨hmem, hmat, hd⟩
    · rintro ⟨hmem, hmat, hd⟩
      exact ⟨hmem, hmat, Or.inr ⟨cur, hsha, hd⟩⟩

theorem C5_witness :
    "A" ∈ DetectChanges chainCBA ⟨fun _ => true, fun _ => none⟩
      BuildManifest.NewManifest :=
  (C5_DetectChanges_correct chainCBA ⟨fun _ => true, fun _ => none⟩
    BuildManifest.NewManifest "A").2.1 (by decide) rfl rfl

/-- C6 (code bug evidence): after a successful build at `sha1`, marking the
same repo `Failed` at `sha2` overwrites the recorded SHA with `sha2` — the
manifest no longer holds the fingerprint of the last success, contradicting
the spec and the source's own doc comments on `LastSHA`/`DetectChanges`. -/
theorem C6_markFailed_overwrites_success_sha :
    ((BuildManifest.NewManifest.MarkSuccess "repo" "sha1").MarkFailed
        "repo" "sha2" (some "boom")).LastSHA "repo" = "sha2" ∧
      ((BuildManifest.NewManifest.MarkSuccess "repo" "sha1").MarkFailed
        "repo" "sha2" (some "boom")).LastSHA "repo" ≠ "sha1" := by
  constructor
  · rfl
  · decide

/-- External collaborators of the build executor: pom.xml existence,
`git.HeadSHA` (error collapsed to `""` as the Go code discards it), and the
maven install action (`some err` on failure). -/
structure BuildEnv where
  pomExists : String → Bool
  headSHA : String → String
  action : String → Option String

/-- `build.BuildResult` (the LogFile path, a pure artifact name, is not
modelled). -/
structure BuildResult where
  repo : String
  skipped : Bool
  errText : Option String
deriving DecidableEq, Repr

/-- The manifest update performed for one processed repo in `RunDAGBuild`. -/
def buildUpdate (env : BuildEnv) (m : BuildManifest) (repo : String) : BuildManifest :=
  match env.action repo with
  | some err => m.MarkFailed repo (env.headSHA repo) (some err)
  | none => m.MarkSuccess repo (env.headSHA repo)

/-- One iteration of the `RunDAGBuild` execution loop (builder.go, layer walk):
skip repos without a pom.xml (no manifest touch), otherwise run the action,
mark the manifest and save it immediately.  State: current manifest, list of
saved snapshots (`manifest.Save()` calls), accumulated results. -/
def runBuildNode (env : BuildEnv)
    (st : BuildManifest × List BuildManifest × List BuildResult) (repo : String) :
    BuildManifest × List BuildManifest × List BuildResult :=
  if env.pomExists repo = false then
    (st.1, st.2.1, st.2.2 ++ [⟨repo, true, none⟩])
  else
    let m' := buildUpdate env st.1 repo
    (m', st.2.1 ++ [m'], st.2.2 ++ [⟨repo, false, env.action repo⟩])

/-- The layer walk of `build.RunDAGBuild` (steps 5–7 of its algorithm):
process every layer in order and every repo within a layer in order. -/
def RunDAGBuildLayers (env : BuildEnv) (layers : List (List String))
    (m : BuildManifest) : BuildManifest × List BuildManifest × List BuildResult :=
  layers.foldl (fun st layer => layer.foldl (runBuildNode env) st) (m, [], [])

/-- The result `RunDAGBuild` produces for a single repo (a pure function of
the environment). -/
def buildResultOf (env : BuildEnv) (repo : String) : BuildResult :=
  if env.pomExists repo = false then ⟨repo, true, none⟩
  else ⟨repo, false, env.action repo⟩

/-- Manifest snapshots produced by saving after each processed repo. -/
def manifestTrail (env : BuildEnv) (m : BuildManifest) :
    List String → List BuildManifest
  | [] => []
  | repo :: rest =>
    buildUpdate env m repo :: manifestTrail env (buildUpdate env m repo) rest

lemma runBuildFold_spec (env : BuildEnv) :
    ∀ (nodes : List String) (m : BuildManifest) (saves : List BuildManifest)
      (results : List BuildResult),
      nodes.foldl (runBuildNode env) (m, saves, results) =
        ((nodes.filter (fun r => env.pomExists r)).foldl (buildUpdate env) m,
          saves ++ manifestTrail env m (nodes.filter (fun r => env.pomExists r)),
          results ++ nodes.map (buildResultOf env)) := by
  intro nodes
  induction nodes with
  | nil => intro m saves results; simp [manifestTrail]
  | cons a rest ih =>
    intro m saves results
    rw [List.foldl_cons]
    by_cases hpom : env.pomExists a = false
    · have hstep : runBuildNode env (m, saves, results) a =
          (m, saves, results ++ [⟨a, true, none⟩]) := by
        simp [runBuildNode, hpom]
      rw [hstep, ih]
      have hfil : (a :: rest).filter (fun r => env.pomExists r) =
          rest.filter (fun r => env.pomExists r) := by
        rw [List.filter_cons, if_neg (by simp [hpom])]
      rw [hfil]
      simp [buildResultOf, hpom]
    · have hpom' : env.pomExists a = true := by
        cases h : env.pomExists a
        · exact absurd h hpom
        · rfl
      have hstep : runBuildNode env (m, saves, results) a =
          (buildUpdate env m a, saves ++ [buildUpdate env m a],
            results ++ [⟨a, false, env.action a⟩]) := by
        simp [runBuildNode, hpom']
      rw [hstep, ih]
      have hfil : (a :: rest).filter (fun r => env.pomExists r) =
          a :: rest.filter (fun r => env.pomExists r) := by
        rw [List.filter_cons, if_pos (by simp [hpom'])]
      rw [hfil]
      simp [manifestTrail, buildResultOf, hpom']

/-- C8: the layered build executor never aborts on a node failure: it walks
every node of every layer in order, collects each node's error in its result,
and after every processed node the manifest is updated (Success with the new
SHA, Failed with the error) and saved immediately. -/
theorem C8_executor_never_aborts (env : BuildEnv) (layers : List (List String))
    (m : BuildManifest) :
    (RunDAGBuildLayers env layers m).2.2 = layers.flatten.map (buildResultOf env) ∧
    ((RunDAGBuildLayers env layers m).2.2.map (fun r => r.repo) = layers.flatten) ∧
    (∀ r ∈ (RunDAGBuildLayers env layers m).2.2, r.skipped = false →
      r.errText = env.action r.repo) ∧
    (RunDAGBuildLayers env layers m).2.1 =
      manifestTrail env m (layers.flatten.filter (fun r => env.pomExists r)) ∧
    (RunDAGBuildLayers env layers m).1 =
      (layers.flatten.filter (fun r => env.pomExists r)).foldl (buildUpdate env) m := by
  have hrun : RunDAGBuildLayers env layers m =
      ((layers.flatten.filter (fun r => env.pomExists r)).foldl (buildUpdate env) m,
        manifestTrail env m (layers.flatten.filter (fun r => env.pomExists r)),
        layers.flatten.map (buildResultOf env)) := by
    unfold RunDAGBuildLayers
    rw [← List.foldl_flatten, runBuildFold_spec]
    simp
  refine ⟨by rw [hrun], ?_, ?_, by rw [hrun], by rw [hrun]⟩
  · rw [hrun]
    simp only [List.map_map]
    have : ∀ repo, (buildResultOf env repo).repo = repo := by
      intro repo
      unfold buildResultOf
      split <;> rfl
    calc layers.flatten.map (fun r => (buildResultOf env r).repo)
        = layers.flatten.map id := List.map_congr_left (fun a _ => this a)
      _ = layers.flatten := List.map_id _
  · rw [hrun]
    intro r hr hskip
    obtain ⟨repo, _, rfl⟩ := List.mem_map.mp hr
    unfold buildResultOf at hskip ⊢
    split at hskip
    · cases hskip
    · rw [if_neg (by assumption)]

theorem C8_witness :
    (RunDAGBuildLayers
        ⟨fun _ => true, fun _ => "s", fun r => if r = "B" then some "boom" else none⟩
        [["A"], ["B", "C"]] BuildManifest.NewManifest).2.2 =
      [["A"], ["B", "C"]].flatten.map
        (buildResultOf
          ⟨fun _ => true, fun _ => "s", fun r => if r = "B" then some "boom" else none⟩) :=
  (C8_executor_never_aborts
    ⟨fun _ => true, fun _ => "s", fun r => if r = "B" then some "boom" else none⟩
    [["A"], ["B", "C"]] BuildManifest.NewManifest).1

namespace Setup

/-- `setup.RepoState`: clone/install state of one repo (the `LastAttempt`
timestamp is not modelled).  Statuses are the Go string constants
"pending" / "success" / "failed" / "skipped". -/
structure RepoState where
  cloneStatus : String
  installStatus : String
  cloneError : String
  installError : String
  commitSHA : String
deriving DecidableEq, Repr

/-- Fresh pending state (`setup.Manifest.Repo` default). -/
def pendingState : RepoState := ⟨"pending", "pending", "", "", ""⟩

/-- `setup.Manifest`: repo-name → state map as an association list
(version/timestamps/settings snapshot not needed by the claims). -/
structure Manifest where
  repos : List (String × RepoState)
deriving DecidableEq, Repr

namespace Manifest

/-- `m.Repo(name)`: the state of a repo, defaulting to pending.  (Go inserts
the default into the map; the insertion is observationally invisible to later
reads, which also default.) -/
def Repo (m : Manifest) (name : String) : RepoState :=
  (m.repos.lookup name).getD pendingState

/-- Map write-back. -/
def setRepo (m : Manifest) (name : String) (rs : RepoState) : Manifest :=
  ⟨(name, rs) :: m.repos.filter (fun p => p.1 != name)⟩

/-- `m.MarkInstall(repo, err)`: record the install result. -/
def MarkInstall (m : Manifest) (repo : String) (err : Option String) : Manifest :=
  let rs := m.Repo repo
  match err with
  | some e => m.setRepo repo { rs with installStatus := "failed", installError := e }
  | none => m.setRepo repo { rs with installStatus := "success", installError := "" }

/-- `m.MarkInstallSkipped(repo)`. -/
def MarkInstallSkipped (m : Manifest) (repo : String) : Manifest :=
  let rs := m.Repo repo
  m.setRepo repo { rs with installStatus := "skipped" }

end Manifest

/-- External collaborators of `setup.InstallAllDAG`: pom.xml existence and the
maven install action (`some err` on failure). -/
structure SetupEnv where
  pomExists : String → Bool
  action : String → Option String

/-- `setup.InstallResult` (LogFile not modelled). -/
structure InstallResult where
  repo : String
  skipped : Bool
  errText : Option String
deriving DecidableEq, Repr

/-- The repo is outside a non-nil filter (`reposFilter != nil &&
!reposFilter[repo]`). -/
def filteredOut (rfilter : Option (String → Bool)) (repo : String) : Bool :=
  match rfilter with
  | some f => !(f repo)
  | none => false

/-- The already-Success skip check (`manifest != nil && reposFilter == nil`
and the manifest records install Success). -/
def skipSuccess (rfilter : Option (String → Bool)) (m : Option Manifest)
    (repo : String) : Bool :=
  match m, rfilter with
  | some mm, none => (mm.Repo repo).installStatus == "success"
  | _, _ => false

/-- One iteration of the `setup.InstallAllDAG` layer walk.  State: current
optional manifest, saved snapshots, accumulated results.  Mirrors the source
order: filter skip, already-success skip, missing-pom handling (which marks
Skipped and is then overwritten by `MarkInstall(repo, nil)` as in the code),
action, mark, save. -/
def installStep (env : SetupEnv) (rfilter : Option (String → Bool))
    (st : Option Manifest × List Manifest × List InstallResult) (repo : String) :
    Option Manifest × List Manifest × List InstallResult :=
  if filteredOut rfilter repo then
    (st.1, st.2.1, st.2.2 ++ [⟨repo, true, none⟩])
  else if skipSuccess rfilter st.1 repo then
    (st.1, st.2.1, st.2.2 ++ [⟨repo, true, none⟩])
  else
    let installErr := if env.pomExists repo then env.action repo else none
    let m1 : Option Manifest :=
      match st.1 with
      | none => none
      | some mm =>
        some (if env.pomExists repo = false then mm.MarkInstallSkipped repo else mm)
    let m2 : Option Manifest :=
      match m1 with
      | none => none
      | some mm => some (mm.MarkInstall repo installErr)
    (m2, st.2.1 ++ (match m2 with | some mm => [mm] | none => []),
      st.2.2 ++ [⟨repo, false, installErr⟩])

/-- `setup.InstallAllDAG`: walk the layers of the framework graph in order
(the layers are passed in; in Go they are `dag.FrameworkGraph().Layers()`). -/
def InstallAllDAG (env : SetupEnv) (rfilter : Option (String → Bool))
    (m : Option Manifest) (layers : List (List String)) :
    Option Manifest × List Manifest × List InstallResult :=
  layers.foldl (fun st layer => layer.foldl (installStep env rfilter) st) (m, [], [])

/-- The result produced for one repo when an explicit filter is supplied
(state-independent in that case). -/
def installResultOf (env : SetupEnv) (f : String → Bool) (repo : String) :
    InstallResult :=
  if f repo = false then ⟨repo, true, none⟩
  else ⟨repo, false, if env.pomExists repo then env.action repo else none⟩

lemma installStep_filtered (env : SetupEnv) (f : String → Bool)
    (st : Option Manifest × List Manifest × List InstallResult) (repo : String)
    (hf : f repo = false) :
    installStep env (some f) st repo = (st.1, st.2.1, st.2.2 ++ [⟨repo, true, none⟩]) := by
  unfold installStep filteredOut
  rw [if_pos (by simp [hf])]

lemma installStep_results_filter (env : SetupEnv) (f : String → Bool)
    (st : Option Manifest × List Manifest × List InstallResult) (repo : String) :
    (installStep env (some f) st repo).2.2 =
      st.2.2 ++ [installResultOf env f repo] := by
  by_cases hf : f repo = false
  · rw [installStep_filtered env f st repo hf]
    unfold installResultOf
    rw [if_pos hf]
  · unfold installStep filteredOut skipSuccess installResultOf
    rw [if_neg (by simp only [Bool.not_eq_false] at hf; simp [hf])]
    have hskip : (match st.1, some f with
        | some mm, none => (mm.Repo repo).installStatus == "success"
        | _, _ => false) = false := by
      rcases st.1 with _ | mm <;> rfl
    rw [if_neg (by rw [hskip]; exact Bool.false_ne_true)]
    rw [if_neg hf]

lemma installFold_results (env : SetupEnv) (f : String → Bool) :
    ∀ (nodes : List String) (st : Option Manifest × List Manifest × List InstallResult),
      (nodes.foldl (installStep env (some f)) st).2.2 =
        st.2.2 ++ nodes.map (installResultOf env f) := by
  intro nodes
  induction nodes with
  | nil => intro st; simp
  | cons a rest ih =>
    intro st
    rw [List.foldl_cons, ih]
    rw [installStep_results_filter]
    simp

end Setup

/-- C9: with an explicit node filter, every node of the layer walk outside the
filter is reported Skipped, the manifest and its saved snapshots are untouched
by it, and the walk continues through all remaining nodes of all layers. -/
theorem C9_filter_skip (env : Setup.SetupEnv) (f : String → Bool)
    (m : Option Setup.Manifest) (layers : List (List String)) :
    (∀ (st : Option Setup.Manifest × List Setup.Manifest × List Setup.InstallResult)
        (repo : String), f repo = false →
      Setup.installStep env (some f) st repo =
        (st.1, st.2.1, st.2.2 ++ [⟨repo, true, none⟩])) ∧
    (Setup.InstallAllDAG env (some f) m layers).2.2 =
      layers.flatten.map (Setup.installResultOf env f) ∧
    (∀ repo, f repo = false →
      Setup.installResultOf env f repo = ⟨repo, true, none⟩) := by
  refine ⟨fun st repo hf => Setup.installStep_filtered env f st repo hf, ?_, ?_⟩
  · unfold Setup.InstallAllDAG
    rw [← List.foldl_flatten, Setup.installFold_results]
    simp
  · intro repo hf
    unfold Setup.installResultOf
    rw [if_pos hf]

theorem C9_witness :
    Setup.installStep ⟨fun _ => true, fun _ => none⟩ (some fun r => r == "A")
        (none, [], []) "B" =
      (none, [], [] ++ [⟨"B", true, none⟩]) :=
  (C9_filter_skip ⟨fun _ => true, fun _ => none⟩ (fun r => r == "A") none []).1
    (none, [], []) "B" rfl

/-- C10: the already-Success skip is applied only when no repo filter is
supplied: with a non-nil filter a repo inside the filter is executed again
(action invoked, result not Skipped, manifest re-marked) even though its
manifest install status is Success, whereas with a nil filter the same status
makes the walk skip it untouched. -/
theorem C10_success_skip_only_without_filter (env : Setup.SetupEnv)
    (f : String → Bool) (mm : Setup.Manifest)
    (saves : List Setup.Manifest) (results : List Setup.InstallResult)
    (repo : String) (hsucc : (mm.Repo repo).installStatus = "success") :
    (f repo = true → env.pomExists repo = true →
      Setup.installStep env (some f) (some mm, saves, results) repo =
        (some (mm.MarkInstall repo (env.action repo)),
          saves ++ [mm.MarkInstall repo (env.action repo)],
          results ++ [⟨repo, false, env.action repo⟩])) ∧
    (Setup.installStep env none (some mm, saves, results) repo =
      (some mm, saves, results ++ [⟨repo, true, none⟩])) := by
  constructor
  · intro hf hpom
    unfold Setup.installStep Setup.filteredOut Setup.skipSuccess
    rw [if_neg (by simp [hf])]
    rw [if_neg (by simp)]
    simp only [hpom, Bool.true_eq_false, if_neg (by simp : ¬(true = false)), if_pos]
    rfl
  · unfold Setup.installStep Setup.filteredOut Setup.skipSuccess
    rw [if_neg (by simp)]
    rw [if_pos (by simp [hsucc])]

theorem C10_witness :
    Setup.installStep ⟨fun _ => true, fun _ => none⟩ (some fun _ => true)
        (some ⟨[("A", ⟨"success", "success", "", "", "s"⟩)]⟩, [], []) "A" =
      (some ((⟨[("A", ⟨"success", "success", "", "", "s"⟩)]⟩ : Setup.Manifest).MarkInstall
          "A" none),
        [] ++ [(⟨[("A", ⟨"success", "success", "", "", "s"⟩)]⟩ : Setup.Manifest).MarkInstall
          "A" none],
        [] ++ [⟨"A", false, none⟩]) :=
  (C10_success_skip_only_without_filter ⟨fun _ => true, fun _ => none⟩
    (fun _ => true) ⟨[("A", ⟨"success", "success", "", "", "s"⟩)]⟩ [] [] "A"
    (by decide)).1 rfl rfl

namespace Graph

lemma DependentsOf_nodup {g : Graph} (hg : g.WF) (id : String) :
    (g.DependentsOf id).Nodup := by
  unfold DependentsOf
  refine List.Nodup.map_on ?_ (hg.2.1.filter _)
  rintro ⟨a, b⟩ ha ⟨c, d⟩ hc h
  obtain ⟨-, hb⟩ := List.mem_filter.mp ha
  obtain ⟨-, hd⟩ := List.mem_filter.mp hc
  have hb' : b = id := by simpa using hb
  have hd' : d = id := by simpa using hd
  simp only at h
  rw [h, hb', hd']

lemma DependenciesOf_nodup {g : Graph} (hg : g.WF) (id : String) :
    (g.DependenciesOf id).Nodup := by
  unfold DependenciesOf
  refine List.Nodup.map_on ?_ (hg.2.1.filter _)
  rintro ⟨a, b⟩ ha ⟨c, d⟩ hc h
  obtain ⟨-, hb⟩ := List.mem_filter.mp ha
  obtain ⟨-, hd⟩ := List.mem_filter.mp hc
  have hb' : a = id := by simpa using hb
  have hd' : c = id := by simpa using hd
  simp only at h
  rw [h, hb', hd']

lemma mem_DependentsOf_iff_deps {g : Graph} {a node : String} :
    a ∈ g.DependentsOf node ↔ node ∈ g.DependenciesOf a := by
  rw [mem_DependentsOf, mem_DependenciesOf]

/-- Characterisation of the shared peel step: each dependent of `node` is
decremented exactly once (the dependent list has no duplicates), and the ones
that reach zero are appended to the queue in order. -/
lemma peelFold_spec :
    ∀ (deps : List String), deps.Nodup → ∀ (inDeg : String → Int) (q : List String),
      deps.foldl
        (fun st2 dependent =>
          let d := st2.1 dependent - 1
          let f := fun x => if x = dependent then d else st2.1 x
          if d = 0 then (f, st2.2 ++ [dependent]) else (f, st2.2))
        (inDeg, q) =
      (fun x => if x ∈ deps then inDeg x - 1 else inDeg x,
        q ++ deps.filter (fun d => inDeg d - 1 == 0)) := by
  intro deps
  induction deps with
  | nil =>
    intro _ inDeg q
    simp only [List.foldl_nil, List.filter_nil, List.append_nil]
    refine Prod.ext ?_ rfl
    funext x
    simp
  | cons a rest ih =>
    intro hnd inDeg q
    obtain ⟨hanr, hndr⟩ := List.nodup_cons.mp hnd
    rw [List.foldl_cons]
    by_cases hz : inDeg a - 1 = 0
    · simp only [if_pos hz]
      rw [ih hndr]
      refine Prod.ext ?_ ?_
      · funext x
        simp only
        by_cases hxa : x = a
        · subst hxa
          simp [hanr]
        · by_cases hxr : x ∈ rest
          · simp [hxr, hxa]
          · simp [hxr, hxa]
      · simp only
        have hfil : rest.filter
              (fun d => (if d = a then inDeg a - 1 else inDeg d) - 1 == 0) =
            rest.filter (fun d => inDeg d - 1 == 0) := by
          refine List.filter_congr ?_
          intro d hd
          have hda : d ≠ a := by
            intro h; subst h; exact hanr hd
          simp [hda]
        rw [hfil, List.filter_cons, if_pos (by simpa using hz)]
        simp
    · simp only [if_neg hz]
      rw [ih hndr]
      refine Prod.ext ?_ ?_
      · funext x
        simp only
        by_cases hxa : x = a
        · subst hxa
          simp [hanr]
        · by_cases hxr : x ∈ rest
          · simp [hxr, hxa]
          · simp [hxr, hxa]
      · simp only
        have hfil : rest.filter
              (fun d => (if d = a then inDeg a - 1 else inDeg d) - 1 == 0) =
            rest.filter (fun d => inDeg d - 1 == 0) := by
          refine List.filter_congr ?_
          intro d hd
          have hda : d ≠ a := by
            intro h; subst h; exact hanr hd
          simp [hda]
        rw [hfil, List.filter_cons, if_neg (by simpa using hz)]

lemma peel_spec {g : Graph} (hg : g.WF) (inDeg : String → Int) (q : List String)
    (node : String) :
    peel g (inDeg, q) node =
      (fun x => if x ∈ g.DependentsOf node then inDeg x - 1 else inDeg x,
        q ++ (g.DependentsOf node).filter (fun d => inDeg d - 1 == 0)) := by
  unfold peel
  exact peelFold_spec (g.DependentsOf node) (DependentsOf_nodup hg node) inDeg q

end Graph

lemma length_filter_ne_of_mem {L : List String} (hnd : L.Nodup) {a : String}
    (ha : a ∈ L) :
    (((L.filter (fun d => d != a)).length : Int)) = (L.length : Int) - 1 := by
  induction L with
  | nil => cases ha
  | cons b rest ih =>
    obtain ⟨hbr, hndr⟩ := List.nodup_cons.mp hnd
    rcases List.mem_cons.mp ha with rfl | har
    · rw [List.filter_cons, if_neg (by simp)]
      have hres : rest.filter (fun d => d != a) = rest := by
        refine List.filter_eq_self.mpr ?_
        intro d hd
        simp only [bne_iff_ne, ne_eq, decide_eq_true_eq]
        intro h; subst h; exact hbr hd
      rw [hres]
      simp only [List.length_cons]
      push_cast
      omega
    · have hba : b ≠ a := by
        intro h; subst h; exact hbr har
      rw [List.filter_cons, if_pos (by simpa using hba)]
      rw [List.length_cons, List.length_cons]
      have := ih hndr har
      push_cast at this ⊢
      omega

lemma eq_singleton_of_nodup_all_eq {L : List String} (hnd : L.Nodup) {a : String}
    (ha : a ∈ L) (hall : ∀ d ∈ L, d = a) : L = [a] := by
  cases L with
  | nil => cases ha
  | cons b rest =>
    obtain ⟨hbr, hndr⟩ := List.nodup_cons.mp hnd
    have hb : b = a := hall b (List.mem_cons_self _ _)
    subst hb
    have : rest = [] := by
      refine List.eq_nil_iff_forall_not_mem.mpr ?_
      intro d hd
      have := hall d (List.mem_cons_of_mem _ hd)
      subst this
      exact hbr hd
    rw [this]

lemma eq_singleton_of_length_one_mem {L : List String} (hlen : L.length = 1)
    {a : String} (ha : a ∈ L) : L = [a] := by
  obtain ⟨b, rfl⟩ := List.length_eq_one.mp hlen
  rcases List.mem_singleton.mp ha with rfl
  rfl

namespace Graph

/-- Loop invariant of Kahn's algorithm (`TopologicalSort`): no duplicates
among the emitted and queued nodes, all of them graph nodes, in-degrees count
the not-yet-emitted dependencies, a node is emitted or queued exactly when all
its dependencies are emitted, and the emitted list is a topological order so
far (dependencies strictly earlier, no self-dependency, closed). -/
def kahnInv (g : Graph) (inDeg : String → Int) (queue sorted : List String) : Prop :=
  (sorted ++ queue).Nodup ∧
  (∀ x ∈ sorted ++ queue, x ∈ g.ordered) ∧
  (∀ x : String, inDeg x =
    (((g.DependenciesOf x).filter (fun d => decide (d ∉ sorted))).length : Int)) ∧
  (∀ x ∈ g.ordered, (x ∈ sorted ∨ x ∈ queue) ↔ ∀ d ∈ g.DependenciesOf x, d ∈ sorted) ∧
  sorted.Pairwise (fun a b => b ∉ g.DependenciesOf a) ∧
  (∀ x ∈ sorted, x ∉ g.DependenciesOf x) ∧
  (∀ x ∈ sorted, ∀ d ∈ g.DependenciesOf x, d ∈ sorted)

/-- What holds of the Kahn output list on termination. -/
def kahnOut (g : Graph) (out : List String) : Prop :=
  out.Nodup ∧
  (∀ x ∈ out, x ∈ g.ordered) ∧
  (∀ x ∈ g.ordered, x ∈ out ↔ ∀ d ∈ g.DependenciesOf x, d ∈ out) ∧
  out.Pairwise (fun a b => b ∉ g.DependenciesOf a) ∧
  (∀ x ∈ out, x ∉ g.DependenciesOf x) ∧
  (∀ x ∈ out, ∀ d ∈ g.DependenciesOf x, d ∈ out)

lemma kahnInv_nil_out {g : Graph} {inDeg : String → Int} {sorted : List String}
    (hinv : g.kahnInv inDeg [] sorted) : g.kahnOut sorted := by
  obtain ⟨hnd, hsub, _, hiff, hpw, hself, hcl⟩ := hinv
  rw [List.append_nil] at hnd hsub
  refine ⟨hnd, hsub, ?_, hpw, hself, ?_⟩
  · intro x hx
    constructor
    · intro h d hd
      exact hcl x h d hd
    · intro h
      rcases (hiff x hx).mpr h with h' | h'
      · exact h'
      · cases h'
  · intro x hx d hd
    exact hcl x hx d hd

end Graph

namespace Graph

lemma kahnInv_step {g : Graph} (hg : g.WF) {inDeg : String → Int}
    {node : String} {rest sorted : List String}
    (hinv : g.kahnInv inDeg (node :: rest) sorted) :
    g.kahnInv (fun x => if x ∈ g.DependentsOf node then inDeg x - 1 else inDeg x)
      (rest ++ (g.DependentsOf node).filter (fun d => inDeg d - 1 == 0))
      (sorted ++ [node]) := by
  obtain ⟨hnd, hsub, hdeg, hiff, hpw, hself, hcl⟩ := hinv
  have hdisj : sorted.Disjoint (node :: rest) := (List.nodup_append.mp hnd).2.2
  have hnodeS : node ∉ sorted := fun h => hdisj h (List.mem_cons_self _ _)
  have hnodeOrd : node ∈ g.ordered :=
    hsub node (List.mem_append.mpr (Or.inr (List.mem_cons_self _ _)))
  have hdepsnode : ∀ d ∈ g.DependenciesOf node, d ∈ sorted :=
    (hiff node hnodeOrd).mp (Or.inr (List.mem_cons_self _ _))
  have hAmem : ∀ a, a ∈ (g.DependentsOf node).filter (fun d => inDeg d - 1 == 0) →
      a ∈ g.DependentsOf node ∧
        ((g.DependenciesOf a).filter (fun d => decide (d ∉ sorted))).length = 1 := by
    intro a ha
    obtain ⟨h1, h2⟩ := List.mem_filter.mp ha
    refine ⟨h1, ?_⟩
    have hda := hdeg a
    have h2' : inDeg a - 1 = 0 := by simpa using h2
    rw [hda] at h2'
    omega
  have hAnew : ∀ a ∈ (g.DependentsOf node).filter (fun d => inDeg d - 1 == 0),
      a ∉ sorted ∧ a ≠ node ∧ a ∉ rest := by
    intro a ha
    obtain ⟨h1, hlen1⟩ := hAmem a ha
    have hnode_dep : node ∈ g.DependenciesOf a := mem_DependentsOf_iff_deps.mp h1
    have haS : a ∉ sorted := fun haS => hnodeS (hcl a haS node hnode_dep)
    refine ⟨haS, ?_, ?_⟩
    · intro heq
      rw [heq] at hnode_dep
      exact hnodeS (hdepsnode node hnode_dep)
    · intro haR
      have haOrd : a ∈ g.ordered := (hg.2.2 (a, node) (mem_DependentsOf.mp h1)).1
      have := (hiff a haOrd).mp (Or.inr (List.mem_cons_of_mem _ haR))
      exact hnodeS (this node hnode_dep)
  have hAord : ∀ a ∈ (g.DependentsOf node).filter (fun d => inDeg d - 1 == 0),
      a ∈ g.ordered := by
    intro a ha
    exact (hg.2.2 (a, node) (mem_DependentsOf.mp (hAmem a ha).1)).1
  have hAnd : ((g.DependentsOf node).filter (fun d => inDeg d - 1 == 0)).Nodup :=
    (DependentsOf_nodup hg node).filter _
  unfold kahnInv
  refine ⟨?_, ?_, ?_, ?_, ?_, ?_, ?_⟩
  · -- nodup
    have hre : (sorted ++ [node]) ++
        (rest ++ (g.DependentsOf node).filter (fun d => inDeg d - 1 == 0)) =
        (sorted ++ node :: rest) ++
          (g.DependentsOf node).filter (fun d => inDeg d - 1 == 0) := by
      simp [List.append_assoc]
    rw [hre, List.nodup_append]
    refine ⟨hnd, hAnd, ?_⟩
    intro a haold haA
    obtain ⟨h1, h2, h3⟩ := hAnew a haA
    rcases List.mem_append.mp haold with h | h
    · exact h1 h
    · rcases List.mem_cons.mp h with rfl | h
      · exact h2 rfl
      · exact h3 h
  · -- subset
    intro x hx
    rcases List.mem_append.mp hx with hx | hx
    · rcases List.mem_append.mp hx with hx | hx
      · exact hsub x (List.mem_append.mpr (Or.inl hx))
      · rcases List.mem_singleton.mp hx with rfl
        exact hnodeOrd
    · rcases List.mem_append.mp hx with hx | hx
      · exact hsub x (List.mem_append.mpr (Or.inr (List.mem_cons_of_mem _ hx)))
      · exact hAord x hx
  · -- degrees
    intro x
    have hfe : (g.DependenciesOf x).filter
          (fun d => decide (d ∉ sorted ++ [node])) =
        ((g.DependenciesOf x).filter (fun d => decide (d ∉ sorted))).filter
          (fun d => d != node) := by
      rw [List.filter_filter]
      refine List.filter_congr ?_
      intro d _
      by_cases h1 : d ∈ sorted <;> by_cases h2 : d = node <;> simp [h1, h2]
    rw [hfe]
    show (if x ∈ g.DependentsOf node then inDeg x - 1 else inDeg x) = _
    by_cases hx : x ∈ g.DependentsOf node
    · rw [if_pos hx]
      have hnodeIn : node ∈ (g.DependenciesOf x).filter
          (fun d => decide (d ∉ sorted)) :=
        List.mem_filter.mpr ⟨mem_DependentsOf_iff_deps.mp hx, by simpa using hnodeS⟩
      have hndF : ((g.DependenciesOf x).filter
          (fun d => decide (d ∉ sorted))).Nodup :=
        (DependenciesOf_nodup hg x).filter _
      rw [length_filter_ne_of_mem hndF hnodeIn, hdeg x]
    · rw [if_neg hx]
      have hre : ((g.DependenciesOf x).filter
            (fun d => decide (d ∉ sorted))).filter (fun d => d != node) =
          (g.DependenciesOf x).filter (fun d => decide (d ∉ sorted)) := by
        refine List.filter_eq_self.mpr ?_
        intro d hd
        have hdx : d ∈ g.DependenciesOf x := (List.mem_filter.mp hd).1
        have hdn : d ≠ node := by
          rintro rfl
          exact hx (mem_DependentsOf_iff_deps.mpr hdx)
        simpa using hdn
      rw [hre, hdeg x]
  · -- membership iff
    intro x hxord
    constructor
    · intro hx d hd
      rcases hx with hx | hx
      · rcases List.mem_append.mp hx with hx | hx
        · exact List.mem_append.mpr (Or.inl (hcl x hx d hd))
        · rcases List.mem_singleton.mp hx with rfl
          exact List.mem_append.mpr (Or.inl (hdepsnode d hd))
      · rcases List.mem_append.mp hx with hx | hx
        · have := (hiff x hxord).mp (Or.inr (List.mem_cons_of_mem _ hx))
          exact List.mem_append.mpr (Or.inl (this d hd))
        · obtain ⟨h1, hlen1⟩ := hAmem x hx
          by_cases hdS : d ∈ sorted
          · exact List.mem_append.mpr (Or.inl hdS)
          · have hnodeIn : node ∈ (g.DependenciesOf x).filter
                (fun d => decide (d ∉ sorted)) :=
              List.mem_filter.mpr
                ⟨mem_DependentsOf_iff_deps.mp h1, by simpa using hnodeS⟩
            have hFsing := eq_singleton_of_length_one_mem hlen1 hnodeIn
            have hdF : d ∈ (g.DependenciesOf x).filter
                (fun d => decide (d ∉ sorted)) :=
              List.mem_filter.mpr ⟨hd, by simpa using hdS⟩
            rw [hFsing] at hdF
            rcases List.mem_singleton.mp hdF with rfl
            exact List.mem_append.mpr (Or.inr (List.mem_singleton.mpr rfl))
    · intro hcldep
      by_cases hall : ∀ d ∈ g.DependenciesOf x, d ∈ sorted
      · rcases (hiff x hxord).mpr hall with hx | hx
        · exact Or.inl (List.mem_append.mpr (Or.inl hx))
        · rcases List.mem_cons.mp hx with rfl | hx
          · exact Or.inl (List.mem_append.mpr (Or.inr (List.mem_singleton.mpr rfl)))
          · exact Or.inr (List.mem_append.mpr (Or.inl hx))
      · push_neg at hall
        obtain ⟨d0, hd0, hd0S⟩ := hall
        have hd0n : d0 = node := by
          rcases List.mem_append.mp (hcldep d0 hd0) with h | h
          · exact absurd h hd0S
          · exact List.mem_singleton.mp h
        rw [hd0n] at hd0 hd0S
        have hxrd : x ∈ g.DependentsOf node := mem_DependentsOf_iff_deps.mpr hd0
        have hndF : ((g.DependenciesOf x).filter
            (fun d => decide (d ∉ sorted))).Nodup :=
          (DependenciesOf_nodup hg x).filter _
        have hFall : ∀ d ∈ (g.DependenciesOf x).filter
            (fun d => decide (d ∉ sorted)), d = node := by
          intro d hdF
          obtain ⟨hdx, hdS⟩ := List.mem_filter.mp hdF
          have hdS' : d ∉ sorted := by simpa using hdS
          rcases List.mem_append.mp (hcldep d hdx) with h | h
          · exact absurd h hdS'
          · exact List.mem_singleton.mp h
        have hnodeF : node ∈ (g.DependenciesOf x).filter
            (fun d => decide (d ∉ sorted)) :=
          List.mem_filter.mpr ⟨hd0, by simpa using hd0S⟩
        have hFeq := eq_singleton_of_nodup_all_eq hndF hnodeF hFall
        have hxA : x ∈ (g.DependentsOf node).filter (fun d => inDeg d - 1 == 0) := by
          refine List.mem_filter.mpr ⟨hxrd, ?_⟩
          have hdx := hdeg x
          rw [hFeq] at hdx
          simp only [List.length_singleton, Nat.cast_one] at hdx
          simp [hdx]
        exact Or.inr (List.mem_append.mpr (Or.inr hxA))
  · -- pairwise
    rw [List.pairwise_append]
    refine ⟨hpw, List.pairwise_singleton _ _, ?_⟩
    intro a ha b hb
    rcases List.mem_singleton.mp hb with rfl
    exact fun h => hnodeS (hcl a ha b h)
  · -- no self dependency
    intro x hx
    rcases List.mem_append.mp hx with hx | hx
    · exact hself x hx
    · rcases List.mem_singleton.mp hx with rfl
      exact fun h => hnodeS (hdepsnode x h)
  · -- closed
    intro x hx d hd
    rcases List.mem_append.mp hx with hx | hx
    · exact List.mem_append.mpr (Or.inl (hcl x hx d hd))
    · rcases List.mem_singleton.mp hx with rfl
      exact List.mem_append.mpr (Or.inl (hdepsnode d hd))

lemma kahnLoop_spec {g : Graph} (hg : g.WF) :
    ∀ (fuel : Nat) (inDeg : String → Int) (queue sorted : List String),
      g.kahnInv inDeg queue sorted →
      g.ordered.length ≤ fuel + sorted.length →
      g.kahnOut (kahnLoop g fuel inDeg queue sorted) := by
  intro fuel
  induction fuel with
  | zero =>
    intro inDeg queue sorted hinv hm
    obtain ⟨hnd, hsub, hdeg, hiff, hpw, hself, hcl⟩ := hinv
    have hlen : (sorted ++ queue).length ≤ g.ordered.length :=
      (List.subperm_of_subset hnd hsub).length_le
    rw [List.length_append] at hlen
    have hq : queue = [] := List.length_eq_zero.mp (by omega)
    subst hq
    exact kahnInv_nil_out ⟨hnd, hsub, hdeg, hiff, hpw, hself, hcl⟩
  | succ fuel ih =>
    intro inDeg queue sorted hinv hm
    cases queue with
    | nil => exact kahnInv_nil_out hinv
    | cons node rest =>
      have hstep : kahnLoop g (fuel + 1) inDeg (node :: rest) sorted =
          kahnLoop g fuel
            (fun x => if x ∈ g.DependentsOf node then inDeg x - 1 else inDeg x)
            (rest ++ (g.DependentsOf node).filter (fun d => inDeg d - 1 == 0))
            (sorted ++ [node]) := by
        show kahnLoop g fuel (peel g (inDeg, rest) node).1 (peel g (inDeg, rest) node).2
            (sorted ++ [node]) = _
        rw [peel_spec hg]
      rw [hstep]
      apply ih
      · exact kahnInv_step hg hinv
      · rw [List.length_append, List.length_singleton]
        omega

end Graph

namespace Graph

/-- The Kahn run performed by `TopologicalSort` (its local `sorted`). -/
def kahnRun (g : Graph) : List String :=
  kahnLoop g (g.ordered.length + 1) (initInDegree g)
    (g.ordered.filter (fun id => initInDegree g id == 0)) []

lemma TopologicalSort_def (g : Graph) :
    g.TopologicalSort =
      if (g.kahnRun).length = g.ordered.length then .ok (g.kahnRun)
      else .error g.detectCycle := rfl

lemma kahnInv_init {g : Graph} (hg : g.WF) :
    g.kahnInv (initInDegree g)
      (g.ordered.filter (fun id => initInDegree g id == 0)) [] := by
  have hfilter_all : ∀ x : String,
      (g.DependenciesOf x).filter (fun d => decide (d ∉ ([] : List String))) =
        g.DependenciesOf x := by
    intro x
    refine List.filter_eq_self.mpr ?_
    intro d _
    simp
  refine ⟨?_, ?_, ?_, ?_, ?_, ?_, ?_⟩
  · rw [List.nil_append]
    exact hg.1.filter _
  · intro x hx
    rw [List.nil_append] at hx
    exact List.mem_of_mem_filter hx
  · intro x
    rw [hfilter_all x]
    rfl
  · intro x hx
    constructor
    · rintro (h | h)
      · cases h
      · intro d hd
        exfalso
        have := (List.mem_filter.mp h).2
        have hzero : initInDegree g x = 0 := by simpa using this
        unfold initInDegree at hzero
        have : (g.DependenciesOf x).length = 0 := by omega
        rw [List.length_eq_zero] at this
        rw [this] at hd
        cases hd
    · intro h
      refine Or.inr (List.mem_filter.mpr ⟨hx, ?_⟩)
      have : g.DependenciesOf x = [] := by
        refine List.eq_nil_iff_forall_not_mem.mpr ?_
        intro d hd
        cases h d hd
      unfold initInDegree
      rw [this]
      simp
  · exact List.Pairwise.nil
  · intro x hx; cases hx
  · intro x hx; cases hx

lemma kahnRun_out {g : Graph} (hg : g.WF) : g.kahnOut (g.kahnRun) :=
  kahnLoop_spec hg _ _ _ _ (kahnInv_init hg) (by omega)

/-- In any completed Kahn output covering the graph, dependencies sit at
strictly smaller positions. -/
lemma indexOf_lt_of_edge {g : Graph} (hg : g.WF) {l : List String}
    (hout : g.kahnOut l) (hcov : ∀ x ∈ g.ordered, x ∈ l)
    {a b : String} (hab : (a, b) ∈ g.edgeList) :
    l.indexOf b < l.indexOf a := by
  obtain ⟨hnd, hsub, hiff, hpw, hself, hcl⟩ := hout
  have haL : a ∈ l := hcov a (hg.2.2 _ hab).1
  have hbL : b ∈ l := hcov b (hg.2.2 _ hab).2
  have hba : b ∈ g.DependenciesOf a := mem_DependenciesOf.mpr hab
  have hia : l.indexOf a < l.length := List.indexOf_lt_length.mpr haL
  have hib : l.indexOf b < l.length := List.indexOf_lt_length.mpr hbL
  rcases Nat.lt_trichotomy (l.indexOf a) (l.indexOf b) with h | h | h
  · exfalso
    have hp := List.pairwise_iff_get.mp hpw ⟨_, hia⟩ ⟨_, hib⟩ h
    rw [List.indexOf_get hia, List.indexOf_get hib] at hp
    exact hp hba
  · exfalso
    have hgeq : l.get ⟨l.indexOf a, hia⟩ = l.get ⟨l.indexOf b, hib⟩ := by
      congr 1
      exact Fin.ext h
    rw [List.indexOf_get hia, List.indexOf_get hib] at hgeq
    rw [hgeq] at hba
    exact hself b hbL hba
  · exact h

lemma acyclic_of_kahnOut_cov {g : Graph} (hg : g.WF) {l : List String}
    (hout : g.kahnOut l) (hcov : ∀ x ∈ g.ordered, x ∈ l) : g.Acyclic := by
  intro z hz
  have hlt : ∀ a b : String, g.DependsOn a b → l.indexOf b < l.indexOf a := by
    intro a b h
    induction h with
    | single h => exact indexOf_lt_of_edge hg hout hcov h
    | tail _ h ih => exact lt_trans (indexOf_lt_of_edge hg hout hcov h) ih
  exact lt_irrefl _ (hlt z z hz)

/-- Acyclicity forces any completed Kahn output to contain every node. -/
lemma kahnOut_complete {g : Graph} (hg : g.WF) (hac : g.Acyclic) {l : List String}
    (hout : g.kahnOut l) : ∀ x ∈ g.ordered, x ∈ l := by
  obtain ⟨hnd, hsub, hiff, hpw, hself, hcl⟩ := hout
  by_contra hnc
  push_neg at hnc
  obtain ⟨x0, hx0ord, hx0out⟩ := hnc
  set T := g.ordered.filter (fun x => decide (x ∉ l)) with hT
  have hx0T : x0 ∈ T := List.mem_filter.mpr ⟨hx0ord, by simpa using hx0out⟩
  have hstepT : ∀ x ∈ T, ∃ d, d ∈ T ∧ (x, d) ∈ g.edgeList := by
    intro x hx
    obtain ⟨hxo, hxno⟩ := List.mem_filter.mp hx
    have hxno' : x ∉ l := by simpa using hxno
    have : ¬ ∀ d ∈ g.DependenciesOf x, d ∈ l := fun h =>
      hxno' ((hiff x hxo).mpr h)
    push_neg at this
    obtain ⟨d, hd, hdno⟩ := this
    have hde : (x, d) ∈ g.edgeList := mem_DependenciesOf.mp hd
    exact ⟨d, List.mem_filter.mpr ⟨(hg.2.2 _ hde).2, by simpa using hdno⟩, hde⟩
  -- iterate the chosen successor; pigeonhole a repetition; contradict acyclicity
  have hF : ∀ y : {y // y ∈ T}, ∃ d : {y // y ∈ T}, (y.val, d.val) ∈ g.edgeList := by
    rintro ⟨y, hy⟩
    obtain ⟨d, hdT, hde⟩ := hstepT y hy
    exact ⟨⟨d, hdT⟩, hde⟩
  classical
  let F : {y // y ∈ T} → {y // y ∈ T} := fun y => (hF y).choose
  have hFe : ∀ y, (y.val, (F y).val) ∈ g.edgeList := fun y => (hF y).choose_spec
  let seq : Nat → {y // y ∈ T} := fun n => F^[n] ⟨x0, hx0T⟩
  have hseq : ∀ n, ((seq n).val, (seq (n + 1)).val) ∈ g.edgeList := by
    intro n
    have : seq (n + 1) = F (seq n) := Function.iterate_succ_apply' F n _
    rw [this]
    exact hFe (seq n)
  have htg : ∀ m k : Nat, g.DependsOn (seq m).val (seq (m + k + 1)).val := by
    intro m k
    induction k with
    | zero => exact Relation.TransGen.single (hseq m)
    | succ k ih => exact Relation.TransGen.tail ih (hseq (m + k + 1))
  have hmaps : ∀ n ∈ Finset.range (T.length + 1), (seq n).val ∈ T.toFinset := by
    intro n _
    exact List.mem_toFinset.mpr (seq n).property
  have hcard : T.toFinset.card < (Finset.range (T.length + 1)).card := by
    rw [Finset.card_range]
    exact Nat.lt_succ_of_le T.toFinset_card_le
  obtain ⟨i, hi, j, hj, hij, hfij⟩ :=
    Finset.exists_ne_map_eq_of_card_lt_of_maps_to hcard hmaps
  rcases Nat.lt_or_ge i j with hlt | hge
  · obtain ⟨k, rfl⟩ : ∃ k, j = i + k + 1 := ⟨j - i - 1, by omega⟩
    have := htg i k
    rw [hfij] at this
    exact hac _ this
  · have hlt : j < i := lt_of_le_of_ne hge (fun h => hij (h ▸ rfl))
    obtain ⟨k, rfl⟩ : ∃ k, i = j + k + 1 := ⟨i - j - 1, by omega⟩
    have := htg j k
    rw [← hfij] at this
    exact hac _ this

lemma kahnRun_complete {g : Graph} (hg : g.WF) (hac : g.Acyclic) :
    ∀ x ∈ g.ordered, x ∈ g.kahnRun :=
  kahnOut_complete hg hac (kahnRun_out hg)

end Graph

namespace Graph

lemma kahnRun_perm {g : Graph} (hg : g.WF) (hac : g.Acyclic) :
    List.Perm g.kahnRun g.ordered := by
  obtain ⟨hnd, hsub, _, _, _, _⟩ := kahnRun_out hg
  have h1 : List.Subperm g.kahnRun g.ordered := List.subperm_of_subset hnd hsub
  have h2 : List.Subperm g.ordered g.kahnRun :=
    List.subperm_of_subset hg.1 (kahnRun_complete hg hac)
  exact h1.perm_of_length_le h2.length_le

lemma TopologicalSort_ok {g : Graph} (hg : g.WF) (hac : g.Acyclic) :
    g.TopologicalSort = .ok g.kahnRun := by
  rw [TopologicalSort_def, if_pos ((kahnRun_perm hg hac).length_eq)]

lemma acyclic_of_TopologicalSort_ok {g : Graph} (hg : g.WF) {l : List String}
    (h : g.TopologicalSort = .ok l) : g.Acyclic := by
  rw [TopologicalSort_def] at h
  split at h
  · rename_i hlen
    obtain ⟨hnd, hsub, _, _, _, _⟩ := kahnRun_out hg
    have hcov : ∀ x ∈ g.ordered, x ∈ g.kahnRun := by
      have hperm : List.Perm g.kahnRun g.ordered :=
        (List.subperm_of_subset hnd hsub).perm_of_length_le (le_of_eq hlen.symm)
      intro x hx
      exact hperm.mem_iff.mpr hx
    exact acyclic_of_kahnOut_cov hg (kahnRun_out hg) hcov
  · cases h

lemma kahnLoop_sorted_prefix (g : Graph) :
    ∀ (fuel : Nat) (inDeg : String → Int) (queue sorted : List String),
      sorted <+: kahnLoop g fuel inDeg queue sorted := by
  intro fuel
  induction fuel with
  | zero => intro inDeg queue sorted; exact List.prefix_refl _
  | succ fuel ih =>
    intro inDeg queue sorted
    cases queue with
    | nil => exact List.prefix_refl _
    | cons node rest =>
      show sorted <+: kahnLoop g fuel (peel g (inDeg, rest) node).1
        (peel g (inDeg, rest) node).2 (sorted ++ [node])
      exact List.IsPrefix.trans (List.prefix_append sorted [node]) (ih _ _ _)

lemma kahnLoop_queue_prefix {g : Graph} (hg : g.WF) :
    ∀ (q extra : List String) (inDeg : String → Int) (sorted : List String)
      (fuel : Nat), q.length ≤ fuel →
      (sorted ++ q) <+: kahnLoop g fuel inDeg (q ++ extra) sorted := by
  intro q
  induction q with
  | nil =>
    intro extra inDeg sorted fuel _
    rw [List.append_nil, List.nil_append]
    exact kahnLoop_sorted_prefix g fuel inDeg extra sorted
  | cons x q ih =>
    intro extra inDeg sorted fuel hf
    cases fuel with
    | zero => simp at hf
    | succ fuel =>
      have hq : (x :: q) ++ extra = x :: (q ++ extra) := rfl
      rw [hq]
      show (sorted ++ x :: q) <+:
        kahnLoop g fuel (peel g (inDeg, q ++ extra) x).1
          (peel g (inDeg, q ++ extra) x).2 (sorted ++ [x])
      rw [peel_spec hg]
      have hre : (q ++ extra) ++
          (g.DependentsOf x).filter (fun d => inDeg d - 1 == 0) =
          q ++ (extra ++ (g.DependentsOf x).filter (fun d => inDeg d - 1 == 0)) := by
        rw [List.append_assoc]
      rw [hre]
      have := ih (extra ++ (g.DependentsOf x).filter (fun d => inDeg d - 1 == 0))
        (fun y => if y ∈ g.DependentsOf x then inDeg y - 1 else inDeg y)
        (sorted ++ [x]) fuel (by simpa using Nat.le_of_succ_le_succ hf)
      have hre2 : (sorted ++ [x]) ++ q = sorted ++ x :: q := by
        rw [List.append_assoc]
        rfl
      rw [hre2] at this
      exact this

lemma kahnRun_seeds_prefix {g : Graph} (hg : g.WF) :
    (g.ordered.filter (fun id => initInDegree g id == 0)) <+: g.kahnRun := by
  have h := kahnLoop_queue_prefix hg
    (g.ordered.filter (fun id => initInDegree g id == 0)) [] (initInDegree g) []
    (g.ordered.length + 1)
    (by
      have := List.length_filter_le (fun id => initInDegree g id == 0) g.ordered
      omega)
  rw [List.append_nil, List.nil_append] at h
  exact h

end Graph

/-- C2: on every acyclic well-formed graph, `TopologicalSort` succeeds, places
every dependency at a strictly smaller position than its dependent, and its
output starts with the in-degree-zero nodes in insertion order (the Kahn
seeds). -/
theorem C2_TopologicalSort_correct (g : Graph) (hg : g.WF) (hac : g.Acyclic) :
    ∃ l, g.TopologicalSort = .ok l ∧
      (∀ f t, (f, t) ∈ g.edgeList → l.indexOf t < l.indexOf f) ∧
      (g.ordered.filter (fun id => Graph.initInDegree g id == 0)) <+: l := by
  refine ⟨g.kahnRun, Graph.TopologicalSort_ok hg hac, ?_, Graph.kahnRun_seeds_prefix hg⟩
  intro f t hft
  exact Graph.indexOf_lt_of_edge hg (Graph.kahnRun_out hg)
    (Graph.kahnRun_complete hg hac) hft

theorem C2_witness :
    ∃ l, chainCBA.TopologicalSort = .ok l ∧
      (∀ f t, (f, t) ∈ chainCBA.edgeList → l.indexOf t < l.indexOf f) ∧
      (chainCBA.ordered.filter (fun id => Graph.initInDegree chainCBA id == 0)) <+: l :=
  C2_TopologicalSort_correct chainCBA (by decide)
    (Graph.acyclic_of_TopologicalSort_ok (by decide)
      (rfl : chainCBA.TopologicalSort = .ok ["A", "B", "C"]))

namespace Graph

/-- One wave of `Layers` preserves the Kahn invariant: processing every node
of the wave in sequence behaves like Kahn dequeues with the collected `next`
wave as the residual queue. -/
lemma waveFold_inv {g : Graph} (hg : g.WF) :
    ∀ (cur : List String) (inDeg : String → Int) (next sorted : List String),
      g.kahnInv inDeg (cur ++ next) sorted →
      g.kahnInv (cur.foldl (fun st2 node => peel g st2 node) (inDeg, next)).1
        (cur.foldl (fun st2 node => peel g st2 node) (inDeg, next)).2
        (sorted ++ cur) := by
  intro cur
  induction cur with
  | nil => intro inDeg next sorted h; simpa using h
  | cons node cur ih =>
    intro inDeg next sorted h
    rw [List.foldl_cons, peel_spec hg]
    have hstep := kahnInv_step hg (show g.kahnInv inDeg (node :: (cur ++ next)) sorted from h)
    have hre : (cur ++ next) ++ (g.DependentsOf node).filter (fun d => inDeg d - 1 == 0) =
        cur ++ (next ++ (g.DependentsOf node).filter (fun d => inDeg d - 1 == 0)) :=
      List.append_assoc _ _ _
    rw [hre] at hstep
    have hout := ih _ _ _ hstep
    have hre2 : (sorted ++ [node]) ++ cur = sorted ++ node :: cur := by
      rw [List.append_assoc]; rfl
    rw [hre2] at hout
    exact hout

/-- Every node collected into the next wave gained it from some member of the
current wave it depends on. -/
lemma waveFold_next_mem {g : Graph} (hg : g.WF) :
    ∀ (cur : List String) (inDeg : String → Int) (next : List String) (x : String),
      x ∈ (cur.foldl (fun st2 node => peel g st2 node) (inDeg, next)).2 →
      x ∈ next ∨ ∃ n ∈ cur, n ∈ g.DependenciesOf x := by
  intro cur
  induction cur with
  | nil => intro inDeg next x hx; exact Or.inl hx
  | cons node cur ih =>
    intro inDeg next x hx
    rw [List.foldl_cons, peel_spec hg] at hx
    rcases ih _ _ _ hx with hx | ⟨n, hn, hnd⟩
    · rcases List.mem_append.mp hx with hx | hx
      · exact Or.inl hx
      · have := (List.mem_filter.mp hx).1
        exact Or.inr ⟨node, List.mem_cons_self _ _,
          mem_DependentsOf_iff_deps.mp this⟩
    · exact Or.inr ⟨n, List.mem_cons_of_mem _ hn, hnd⟩

/-- Master lemma for the `Layers` wave loop: the Kahn invariant on the
flattened layers, the per-layer placement facts, and the freshness of the
current wave are all preserved to the end. -/
lemma layersLoop_spec {g : Graph} (hg : g.WF) :
    ∀ (fuel : Nat) (inDeg : String → Int) (current : List String)
      (acc : List (List String)),
      g.kahnInv inDeg current acc.flatten →
      g.ordered.length ≤ fuel + acc.flatten.length →
      (∀ (k : Nat) (hk : k < acc.length), ∀ x ∈ acc.get ⟨k, hk⟩,
        ∀ d ∈ g.DependenciesOf x,
          ∃ (j : Nat) (hj : j < acc.length), j < k ∧ d ∈ acc.get ⟨j, hj⟩) →
      (∀ (k : Nat) (hk : k < acc.length), ∀ x ∈ acc.get ⟨k, hk⟩, 0 < k →
        ∃ d ∈ g.DependenciesOf x,
          ∃ (hj : k - 1 < acc.length), d ∈ acc.get ⟨k - 1, hj⟩) →
      (0 < acc.length → ∀ x ∈ current, ∃ d ∈ g.DependenciesOf x,
        ∃ (hj : acc.length - 1 < acc.length), d ∈ acc.get ⟨acc.length - 1, hj⟩) →
      g.kahnOut (layersLoop g fuel inDeg current acc).flatten ∧
      (∀ (k : Nat) (hk : k < (layersLoop g fuel inDeg current acc).length),
        ∀ x ∈ (layersLoop g fuel inDeg current acc).get ⟨k, hk⟩,
        ∀ d ∈ g.DependenciesOf x,
          ∃ (j : Nat) (hj : j < (layersLoop g fuel inDeg current acc).length),
            j < k ∧ d ∈ (layersLoop g fuel inDeg current acc).get ⟨j, hj⟩) ∧
      (∀ (k : Nat) (hk : k < (layersLoop g fuel inDeg current acc).length),
        ∀ x ∈ (layersLoop g fuel inDeg current acc).get ⟨k, hk⟩, 0 < k →
        ∃ d ∈ g.DependenciesOf x,
          ∃ (hj : k - 1 < (layersLoop g fuel inDeg current acc).length),
            d ∈ (layersLoop g fuel inDeg current acc).get ⟨k - 1, hj⟩) := by
  intro fuel
  induction fuel with
  | zero =>
    intro inDeg current acc hinv hm hL2 hL3 _
    obtain ⟨hnd, hsub, -, -, -, -, -⟩ := id hinv
    have hlen : (acc.flatten ++ current).length ≤ g.ordered.length :=
      (List.subperm_of_subset hnd hsub).length_le
    rw [List.length_append] at hlen
    have hq : current = [] := List.length_eq_zero.mp (by omega)
    subst hq
    exact ⟨kahnInv_nil_out hinv, hL2, hL3⟩
  | succ fuel ih =>
    intro inDeg current acc hinv hm hL2 hL3 hL5
    cases current with
    | nil => exact ⟨kahnInv_nil_out hinv, hL2, hL3⟩
    | cons c cs =>
      have hstep : layersLoop g (fuel + 1) inDeg (c :: cs) acc =
          layersLoop g fuel
            ((c :: cs).foldl (fun st2 node => peel g st2 node) (inDeg, [])).1
            ((c :: cs).foldl (fun st2 node => peel g st2 node) (inDeg, [])).2
            (acc ++ [c :: cs]) := rfl
      rw [hstep]
      have hflat : (acc ++ [c :: cs]).flatten = acc.flatten ++ (c :: cs) := by
        rw [List.flatten_append]
        simp
      have hinv' : g.kahnInv
          ((c :: cs).foldl (fun st2 node => peel g st2 node) (inDeg, [])).1
          ((c :: cs).foldl (fun st2 node => peel g st2 node) (inDeg, [])).2
          ((acc ++ [c :: cs]).flatten) := by
        rw [hflat]
        exact waveFold_inv hg (c :: cs) inDeg [] acc.flatten (by simpa using hinv)
      -- dependencies of the wave's nodes lie in the flat prefix
      have hwavedeps : ∀ x ∈ c :: cs, ∀ d ∈ g.DependenciesOf x, d ∈ acc.flatten := by
        intro x hx d hd
        obtain ⟨_, hsub, _, hiff, _, _, _⟩ := hinv
        have hxo : x ∈ g.ordered := hsub x (List.mem_append.mpr (Or.inr hx))
        exact (hiff x hxo).mp (Or.inr hx) d hd
      have hlenA : (acc ++ [c :: cs]).length = acc.length + 1 := by
        rw [List.length_append]; rfl
      -- get-transfer helpers
      have hgetL : ∀ (j : Nat) (hj : j < acc.length) (hj2 : j < (acc ++ [c :: cs]).length),
          (acc ++ [c :: cs]).get ⟨j, hj2⟩ = acc.get ⟨j, hj⟩ := by
        intro j hj hj2
        rw [List.get_eq_getElem, List.get_eq_getElem, List.getElem_append_left]
      have hgetR : ∀ (hj : acc.length < (acc ++ [c :: cs]).length),
          (acc ++ [c :: cs]).get ⟨acc.length, hj⟩ = c :: cs := by
        intro hj
        rw [List.get_eq_getElem, List.getElem_concat_length]
        rfl
      apply ih
      · exact hinv'
      · rw [hflat, List.length_append]
        have : 0 < (c :: cs).length := by simp
        omega
      · -- L2 for acc ++ [wave]
        intro k hk x hx d hd
        rcases Nat.lt_or_ge k acc.length with hka | hka
        · rw [hgetL k hka hk] at hx
          obtain ⟨j, hj, hjk, hmem⟩ := hL2 k hka x hx d hd
          exact ⟨j, by omega, hjk, by rw [hgetL j hj (by omega)]; exact hmem⟩
        · have hkeq : k = acc.length := by
            rw [hlenA] at hk; omega
          subst hkeq
          rw [hgetR hk] at hx
          have hdflat := hwavedeps x hx d hd
          obtain ⟨layer, hlay, hdl⟩ := List.mem_flatten.mp hdflat
          obtain ⟨⟨j, hj⟩, hget⟩ := List.mem_iff_get.mp hlay
          refine ⟨j, by omega, by omega, ?_⟩
          rw [hgetL j hj (by omega), hget]
          exact hdl
      · -- L3 for acc ++ [wave]
        intro k hk x hx hk0
        rcases Nat.lt_or_ge k acc.length with hka | hka
        · rw [hgetL k hka hk] at hx
          obtain ⟨d, hd, hj, hmem⟩ := hL3 k hka x hx hk0
          exact ⟨d, hd, by omega, by rw [hgetL (k-1) hj (by omega)]; exact hmem⟩
        · have hkeq : k = acc.length := by
            rw [hlenA] at hk; omega
          subst hkeq
          rw [hgetR hk] at hx
          obtain ⟨d, hd, hj, hmem⟩ := hL5 hk0 x hx
          refine ⟨d, hd, by omega, ?_⟩
          rw [hgetL (acc.length - 1) hj (by omega)]
          exact hmem
      · -- L5 for the next wave
        intro _ x hx
        rcases waveFold_next_mem hg (c :: cs) inDeg [] x hx with h | ⟨n, hn, hnd⟩
        · cases h
        · have key : ∀ (hj : (acc ++ [c :: cs]).length - 1 < (acc ++ [c :: cs]).length),
              (acc ++ [c :: cs]).get ⟨(acc ++ [c :: cs]).length - 1, hj⟩ = c :: cs := by
            intro hj
            have hv : (acc ++ [c :: cs]).length - 1 = acc.length := by
              rw [hlenA]
              omega
            rw [show (⟨(acc ++ [c :: cs]).length - 1, hj⟩ :
                Fin (acc ++ [c :: cs]).length) =
                ⟨acc.length, by omega⟩ from Fin.ext hv]
            exact hgetR _
          refine ⟨n, hnd, by rw [hlenA]; omega, ?_⟩
          rw [key]
          exact hn

end Graph

namespace Graph

/-- The wave run performed by `Layers` (its local `layers`). -/
def layersRun (g : Graph) : List (List String) :=
  layersLoop g (g.ordered.length + 1) (initInDegree g)
    (g.ordered.filter (fun id => initInDegree g id == 0)) []

lemma Layers_def (g : Graph) :
    g.Layers =
      if (g.layersRun).flatten.length = g.ordered.length then .ok (g.layersRun)
      else .error g.detectCycle := rfl

lemma layersRun_spec {g : Graph} (hg : g.WF) :
    g.kahnOut (g.layersRun).flatten ∧
    (∀ (k : Nat) (hk : k < (g.layersRun).length), ∀ x ∈ (g.layersRun).get ⟨k, hk⟩,
      ∀ d ∈ g.DependenciesOf x,
        ∃ (j : Nat) (hj : j < (g.layersRun).length),
          j < k ∧ d ∈ (g.layersRun).get ⟨j, hj⟩) ∧
    (∀ (k : Nat) (hk : k < (g.layersRun).length), ∀ x ∈ (g.layersRun).get ⟨k, hk⟩,
      0 < k → ∃ d ∈ g.DependenciesOf x,
        ∃ (hj : k - 1 < (g.layersRun).length), d ∈ (g.layersRun).get ⟨k - 1, hj⟩) := by
  refine layersLoop_spec hg (g.ordered.length + 1) (initInDegree g)
    (g.ordered.filter (fun id => initInDegree g id == 0)) [] ?_ ?_ ?_ ?_ ?_
  · exact kahnInv_init hg
  · simp
  · intro k hk
    cases hk
  · intro k hk
    cases hk
  · intro h
    cases h

lemma Layers_ok {g : Graph} (hg : g.WF) (hac : g.Acyclic) :
    g.Layers = .ok g.layersRun := by
  obtain ⟨hout, _, _⟩ := layersRun_spec hg
  obtain ⟨hnd, hsub, -, -, -, -⟩ := id hout
  have h1 : List.Subperm (g.layersRun).flatten g.ordered :=
    List.subperm_of_subset hnd hsub
  have h2 : List.Subperm g.ordered (g.layersRun).flatten :=
    List.subperm_of_subset hg.1 (kahnOut_complete hg hac hout)
  rw [Layers_def, if_pos (h1.perm_of_length_le h2.length_le).length_eq]

lemma acyclic_of_Layers_ok {g : Graph} (hg : g.WF) {ls : List (List String)}
    (h : g.Layers = .ok ls) : g.Acyclic := by
  rw [Layers_def] at h
  split at h
  · rename_i hlen
    obtain ⟨hout, _, _⟩ := layersRun_spec hg
    obtain ⟨hnd, hsub, -, -, -, -⟩ := id hout
    have hcov : ∀ x ∈ g.ordered, x ∈ (g.layersRun).flatten := by
      have hperm : List.Perm (g.layersRun).flatten g.ordered :=
        (List.subperm_of_subset hnd hsub).perm_of_length_le (le_of_eq hlen.symm)
      intro x hx
      exact hperm.mem_iff.mpr hx
    exact acyclic_of_kahnOut_cov hg hout hcov
  · cases h

end Graph

/-- C3: on every acyclic well-formed graph, `Layers` succeeds; every node
appears in exactly one layer (the flattening is a duplicate-free enumeration
of the nodes); each node's dependencies lie in strictly earlier layers with
one in the directly preceding layer when the node is not in layer 0 (so the
layer index is the minimum index exceeding all dependency layers, 0 when
there are none); and flattening the layers in order is a valid topological
order. -/
theorem C3_Layers_correct (g : Graph) (hg : g.WF) (hac : g.Acyclic) :
    ∃ ls, g.Layers = .ok ls ∧
      (∀ x, x ∈ ls.flatten ↔ x ∈ g.ordered) ∧
      ls.flatten.Nodup ∧
      (∀ (k : Nat) (hk : k < ls.length), ∀ x ∈ ls.get ⟨k, hk⟩,
        ∀ d ∈ g.DependenciesOf x,
          ∃ (j : Nat) (hj : j < ls.length), j < k ∧ d ∈ ls.get ⟨j, hj⟩) ∧
      (∀ (k : Nat) (hk : k < ls.length), ∀ x ∈ ls.get ⟨k, hk⟩, 0 < k →
        ∃ d ∈ g.DependenciesOf x,
          ∃ (hj : k - 1 < ls.length), d ∈ ls.get ⟨k - 1, hj⟩) ∧
      (∀ f t, (f, t) ∈ g.edgeList →
        ls.flatten.indexOf t < ls.flatten.indexOf f) := by
  obtain ⟨hout, hL2, hL3⟩ := Graph.layersRun_spec hg
  have hcov : ∀ x ∈ g.ordered, x ∈ (g.layersRun).flatten :=
    Graph.kahnOut_complete hg hac hout
  refine ⟨g.layersRun, Graph.Layers_ok hg hac, ?_, hout.1, hL2, hL3, ?_⟩
  · intro x
    exact ⟨fun h => hout.2.1 x h, fun h => hcov x h⟩
  · intro f t hft
    exact Graph.indexOf_lt_of_edge hg hout hcov hft

theorem C3_witness :
    ∃ ls, chainCBA.Layers = .ok ls ∧
      (∀ x, x ∈ ls.flatten ↔ x ∈ chainCBA.ordered) ∧
      ls.flatten.Nodup ∧
      (∀ (k : Nat) (hk : k < ls.length), ∀ x ∈ ls.get ⟨k, hk⟩,
        ∀ d ∈ chainCBA.DependenciesOf x,
          ∃ (j : Nat) (hj : j < ls.length), j < k ∧ d ∈ ls.get ⟨j, hj⟩) ∧
      (∀ (k : Nat) (hk : k < ls.length), ∀ x ∈ ls.get ⟨k, hk⟩, 0 < k →
        ∃ d ∈ chainCBA.DependenciesOf x,
          ∃ (hj : k - 1 < ls.length), d ∈ ls.get ⟨k - 1, hj⟩) ∧
      (∀ f t, (f, t) ∈ chainCBA.edgeList →
        ls.flatten.indexOf t < ls.flatten.indexOf f) :=
  C3_Layers_correct chainCBA (by decide)
    (Graph.acyclic_of_TopologicalSort_ok (by decide)
      (rfl : chainCBA.TopologicalSort = .ok ["A", "B", "C"]))

namespace Graph

/-- The reported path is a genuine cycle: at least one edge, closed (first id
equals last id), every consecutive pair an existing dependency edge. -/
def ValidCycleOf (g : Graph) (p : List String) : Prop :=
  2 ≤ p.length ∧ p.head? = p.getLast? ∧
    List.Chain' (fun a b => (a, b) ∈ g.edgeList) p

/-- DFS invariant: the gray nodes are exactly the current stack (top first),
linked top-down by parent pointers along existing edges. -/
def GrayChain (g : Graph) (colors : String → Nat) (par : String → String)
    (stack : List String) : Prop :=
  (∀ x, colors x = 1 ↔ x ∈ stack) ∧
  List.Chain' (fun a b => par a = b ∧ (b, a) ∈ g.edgeList) stack ∧
  stack.Nodup ∧ (∀ x ∈ stack, x ∈ g.ordered)

/-- Black nodes have only black dependencies. -/
def BlackClosed (g : Graph) (colors : String → Nat) : Prop :=
  ∀ x, colors x = 2 → ∀ d ∈ g.DependenciesOf x, colors d = 2

/-- No black node lies on a dependency cycle. -/
def NoBlackCycle (g : Graph) (colors : String → Nat) : Prop :=
  ∀ x, colors x = 2 → ¬ g.DependsOn x x

/-- Number of still-white graph nodes (the DFS fuel measure). -/
def whiteCount (g : Graph) (colors : String → Nat) : Nat :=
  (g.ordered.filter (fun x => colors x == 0)).length

/-- Forward edge reachability (zero or more dependency edges). -/
def DepReach (g : Graph) (a b : String) : Prop :=
  Relation.ReflTransGen (fun u v => (u, v) ∈ g.edgeList) a b

lemma black_reach {g : Graph} {colors : String → Nat} (hbc : g.BlackClosed colors)
    {d w : String} (hd : colors d = 2) (hr : g.DepReach d w) : colors w = 2 := by
  unfold DepReach at hr
  induction hr with
  | refl => exact hd
  | tail _ h ih =>
    exact hbc _ ih _ (mem_DependenciesOf.mpr h)

lemma whiteCount_le (g : Graph) (colors : String → Nat) :
    g.whiteCount colors ≤ g.ordered.length :=
  List.length_filter_le _ _

lemma whiteCount_mono {g : Graph} {c1 c2 : String → Nat}
    (h : ∀ x, c2 x = 0 → c1 x = 0) : g.whiteCount c2 ≤ g.whiteCount c1 := by
  unfold whiteCount
  rw [(g.ordered.countP_eq_length_filter (fun x => c2 x == 0)).symm,
    (g.ordered.countP_eq_length_filter (fun x => c1 x == 0)).symm]
  refine List.countP_mono_left ?_
  intro x _ hx
  have := h x (by simpa using hx)
  simpa using this

lemma whiteCount_gray_update {g : Graph} (hg : g.WF) {colors : String → Nat}
    {node : String} (hn : node ∈ g.ordered) (hw : colors node = 0) :
    g.whiteCount (fun x => if x = node then 1 else colors x) + 1 =
      g.whiteCount colors := by
  unfold whiteCount
  have key : ∀ L : List String, L.Nodup → node ∈ L →
      (L.filter (fun x => (if x = node then (1 : Nat) else colors x) == 0)).length + 1 =
        (L.filter (fun x => colors x == 0)).length := by
    intro L
    induction L with
    | nil => intro _ h; cases h
    | cons a rest ih =>
      intro hnd ha
      obtain ⟨har, hndr⟩ := List.nodup_cons.mp hnd
      rcases List.mem_cons.mp ha with heq | ha
      · rw [List.filter_cons, List.filter_cons,
          if_neg (by rw [if_pos heq.symm]; simp),
          if_pos (by rw [← heq]; simpa using hw)]
        have hcong : rest.filter (fun x => (if x = node then (1 : Nat) else colors x) == 0) =
            rest.filter (fun x => colors x == 0) := by
          refine List.filter_congr ?_
          intro x hx
          have hxn : x ≠ node := by
            intro h
            rw [h, heq] at hx
            exact har hx
          simp [hxn]
        rw [hcong]
        simp
      · have hna : node ≠ a := fun h => har (h ▸ ha)
        rw [List.filter_cons, List.filter_cons]
        have hsame : ((if a = node then (1 : Nat) else colors a) == 0) = (colors a == 0) := by
          rw [if_neg (fun h => hna h.symm)]
        rw [hsame]
        by_cases hca : (colors a == 0) = true
        · rw [if_pos hca, if_pos hca]
          simp only [List.length_cons]
          have := ih hndr ha
          omega
        · rw [if_neg hca, if_neg hca]
          exact ih hndr ha
  simpa using key g.ordered hg.1 hn

lemma whiteCount_pos {g : Graph} {colors : String → Nat} {node : String}
    (hn : node ∈ g.ordered) (hw : colors node = 0) : 0 < g.whiteCount colors := by
  unfold whiteCount
  have : node ∈ g.ordered.filter (fun x => colors x == 0) :=
    List.mem_filter.mpr ⟨hn, by simpa using hw⟩
  exact List.length_pos.mpr (fun h => by rw [h] at this; cases this)

/-- The parent-pointer walk of `buildCycle` along a gray chain reaches `dep`
and records the traversed chain segment. -/
lemma buildCycle_chain {g : Graph} {par : String → String} {dep : String} :
    ∀ (s : List String) (cur : String),
      List.Chain' (fun a b => par a = b ∧ (b, a) ∈ g.edgeList) (cur :: s) →
      dep ∈ cur :: s →
      ∀ (acc : List String) (fuel : Nat), s.length < fuel →
        ∃ w, buildCycle par fuel dep cur acc = acc ++ w ∧
          ((cur = dep ∧ w = []) ∨
            (w ≠ [] ∧ w.getLast? = some dep ∧
              List.Chain' (fun a b => par a = b ∧ (b, a) ∈ g.edgeList) (cur :: w))) := by
  intro s
  induction s with
  | nil =>
    intro cur hch hdep acc fuel hf
    rcases List.mem_singleton.mp hdep with rfl
    cases fuel with
    | zero => cases hf
    | succ fuel =>
      refine ⟨[], by simp [buildCycle], Or.inl ⟨rfl, rfl⟩⟩
  | cons c2 s ih =>
    intro cur hch hdep acc fuel hf
    by_cases hcd : cur = dep
    · cases fuel with
      | zero => cases hf
      | succ fuel =>
        refine ⟨[], ?_, Or.inl ⟨hcd, rfl⟩⟩
        unfold buildCycle
        rw [if_pos hcd]
        simp
    · have hdep2 : dep ∈ c2 :: s := by
        rcases List.mem_cons.mp hdep with h | h
        · exact absurd h.symm hcd
        · exact h
      obtain ⟨hpair, hch2⟩ := List.chain'_cons.mp hch
      cases fuel with
      | zero => cases hf
      | succ fuel =>
        have hstep : buildCycle par (fuel + 1) dep cur acc =
            if cur = dep then acc
            else buildCycle par fuel dep (par cur) (acc ++ [par cur]) := rfl
        rw [hstep, if_neg hcd, hpair.1]
        obtain ⟨w', hw', hcase⟩ := ih c2 hch2 hdep2 (acc ++ [c2]) fuel
          (by simpa using Nat.lt_of_succ_lt_succ hf)
        rcases hcase with ⟨rfl, rfl⟩ | ⟨hne, hlast, hchw⟩
        · refine ⟨[c2], by simpa using hw', Or.inr ⟨by simp, by simp, ?_⟩⟩
          exact List.chain'_cons.mpr ⟨hpair, List.chain'_singleton _⟩
        · refine ⟨c2 :: w', by simpa using hw', Or.inr ⟨by simp, ?_, ?_⟩⟩
          · have : (c2 :: w').getLast? = w'.getLast? := by
              cases w' with
              | nil => exact absurd rfl hne
              | cons b t => rfl
            rw [this]
            exact hlast
          · exact List.chain'_cons.mpr ⟨hpair, hchw⟩

end Graph

namespace Graph

/-- Colours stay within the Go constants {white, gray, black}. -/
def ColorRange (colors : String → Nat) : Prop := ∀ x, colors x < 3

lemma chain'_par_congr {g : Graph} {par par' : String → String} :
    ∀ (stack : List String), (∀ x ∈ stack, par' x = par x) →
      List.Chain' (fun a b => par a = b ∧ (b, a) ∈ g.edgeList) stack →
      List.Chain' (fun a b => par' a = b ∧ (b, a) ∈ g.edgeList) stack := by
  intro stack
  induction stack with
  | nil => intro _ _; exact List.chain'_nil
  | cons a tail ih =>
    intro hcong hch
    cases tail with
    | nil => exact List.chain'_singleton _
    | cons b t =>
      obtain ⟨⟨hp, he⟩, hch2⟩ := List.chain'_cons.mp hch
      refine List.chain'_cons.mpr ⟨⟨?_, he⟩, ?_⟩
      · rw [hcong a (List.mem_cons_self _ _)]
        exact hp
      · exact ih (fun x hx => hcong x (List.mem_cons_of_mem _ hx)) hch2

/-- Precondition of a `dfs(node)` call. -/
def dfsPre (g : Graph) (fuel : Nat) (colors : String → Nat) (par : String → String)
    (stack : List String) (node : String) : Prop :=
  g.GrayChain colors par stack ∧ g.BlackClosed colors ∧ g.NoBlackCycle colors ∧
  ColorRange colors ∧ colors node = 0 ∧ node ∈ g.ordered ∧
  g.whiteCount colors < fuel ∧
  (stack = [] ∨ ∃ top rest2, stack = top :: rest2 ∧ par node = top ∧
    (top, node) ∈ g.edgeList)

/-- Postcondition of `dfs(node)`: either a valid cycle is reported, or the
call returns cleanly having blackened everything reachable from `node` while
leaving non-white nodes (and their parent pointers) untouched. -/
def dfsPost (g : Graph) (colors : String → Nat) (par : String → String)
    (node : String)
    (out : ((String → Nat) × (String → String)) × Option (List String)) : Prop :=
  match out.2 with
  | some c => g.ValidCycleOf c
  | none =>
    (∀ x, colors x ≠ 0 → out.1.1 x = colors x) ∧
    (∀ x, colors x ≠ 0 → out.1.2 x = par x) ∧
    (∀ x, out.1.1 x = 1 → colors x = 1) ∧
    (∀ w, g.DepReach node w → out.1.1 w = 2) ∧
    g.BlackClosed out.1.1 ∧ g.NoBlackCycle out.1.1 ∧ ColorRange out.1.1

/-- Postcondition of the dependency scan of `dfs(node)` over suffix `deps`. -/
def dfsDepsPost (g : Graph) (colors : String → Nat) (par : String → String)
    (deps : List String)
    (out : ((String → Nat) × (String → String)) × Option (List String)) : Prop :=
  match out.2 with
  | some c => g.ValidCycleOf c
  | none =>
    (∀ x, colors x ≠ 0 → out.1.1 x = colors x) ∧
    (∀ x, colors x ≠ 0 → out.1.2 x = par x) ∧
    (∀ x, out.1.1 x = 1 → colors x = 1) ∧
    (∀ d ∈ deps, ∀ w, g.DepReach d w → out.1.1 w = 2) ∧
    g.BlackClosed out.1.1 ∧ g.NoBlackCycle out.1.1 ∧ ColorRange out.1.1

end Graph


namespace Graph

lemma dfsA_succ (g : Graph) (fuel : Nat) (colors : String → Nat)
    (par : String → String) (node : String) :
    dfsA g (fuel + 1) colors par node =
      (match dfsDeps g fuel (fun x => if x = node then 1 else colors x) par node
          (g.DependenciesOf node) with
        | (st, some c) => (st, some c)
        | ((c2, p2), none) =>
          ((fun x => if x = node then 2 else c2 x, p2), none)) := by
  simp only [dfsA]

lemma dfsDeps_nilE (g : Graph) (fuel : Nat) (colors : String → Nat)
    (par : String → String) (node : String) :
    dfsDeps g fuel colors par node [] = ((colors, par), none) := by
  simp only [dfsDeps]

lemma dfsDeps_consE (g : Graph) (fuel : Nat) (colors : String → Nat)
    (par : String → String) (node dep : String) (rest : List String) :
    dfsDeps g fuel colors par node (dep :: rest) =
      (if colors dep = 1 then
        ((colors, par),
          some ((buildCycle par (g.ordered.length + 1) dep node
            [dep, node]).reverse))
      else if colors dep = 0 then
        match dfsA g fuel colors (fun x => if x = dep then node else par x) dep with
        | (st, some c) => (st, some c)
        | ((c2, p2), none) => dfsDeps g fuel c2 p2 node rest
      else dfsDeps g fuel colors par node rest) := by
  simp only [dfsDeps]

/-- Joint correctness of the DFS body and its dependency scan. -/
lemma dfs_spec {g : Graph} (hg : g.WF) : ∀ fuel : Nat,
    (∀ colors par stack node, g.dfsPre fuel colors par stack node →
      g.dfsPost colors par node (dfsA g fuel colors par node)) ∧
    (∀ colors par node rest2 deps,
      g.GrayChain colors par (node :: rest2) → g.BlackClosed colors →
      g.NoBlackCycle colors → ColorRange colors →
      (∀ d ∈ deps, d ∈ g.DependenciesOf node) →
      g.whiteCount colors < fuel →
      g.dfsDepsPost colors par deps (dfsDeps g fuel colors par node deps)) := by
  intro fuel
  induction fuel with
  | zero =>
    constructor
    · intro colors par stack node hpre
      obtain ⟨-, -, -, -, -, -, hwc, -⟩ := hpre
      exact absurd hwc (by omega)
    · intro colors par node rest2 deps _ _ _ _ _ hfuel
      exact absurd hfuel (by omega)
  | succ fuel ih =>
    obtain ⟨-, ihD⟩ := ih
    have hA : ∀ colors par stack node, g.dfsPre (fuel + 1) colors par stack node →
        g.dfsPost colors par node (dfsA g (fuel + 1) colors par node) := by
      intro colors par stack node hpre
      obtain ⟨⟨hgc_iff, hgc_ch, hgc_nd, hgc_sub⟩, hbc, hnbc, hcr, hwhite, hord,
        hfuel, hlink⟩ := hpre
      have hnstack : node ∉ stack := fun h => by
        have := (hgc_iff node).mpr h
        omega
      have hgc1 : g.GrayChain (fun x => if x = node then 1 else colors x) par
          (node :: stack) := by
        refine ⟨?_, ?_, List.nodup_cons.mpr ⟨hnstack, hgc_nd⟩, ?_⟩
        · intro x
          show (if x = node then 1 else colors x) = 1 ↔ x ∈ node :: stack
          by_cases hx : x = node
          · subst hx
            simp
          · rw [if_neg hx, hgc_iff x]
            constructor
            · exact fun h => List.mem_cons_of_mem _ h
            · intro h
              rcases List.mem_cons.mp h with h | h
              · exact absurd h hx
              · exact h
        · rcases hlink with rfl | ⟨top, rest2, rfl, hpar, hedge⟩
          · exact List.chain'_singleton _
          · exact List.chain'_cons.mpr ⟨⟨hpar, hedge⟩, hgc_ch⟩
        · intro x hx
          rcases List.mem_cons.mp hx with rfl | hx
          · exact hord
          · exact hgc_sub x hx
      have hbc1 : g.BlackClosed (fun x => if x = node then 1 else colors x) := by
        intro x hx d hd
        have hx' : (if x = node then 1 else colors x) = 2 := hx
        have hxn : x ≠ node := by rintro rfl; rw [if_pos rfl] at hx'; omega
        rw [if_neg hxn] at hx'
        have hd2 := hbc x hx' d hd
        show (if d = node then 1 else colors d) = 2
        rw [if_neg (by rintro rfl; omega)]
        exact hd2
      have hnbc1 : g.NoBlackCycle (fun x => if x = node then 1 else colors x) := by
        intro x hx
        have hx' : (if x = node then 1 else colors x) = 2 := hx
        have hxn : x ≠ node := by rintro rfl; rw [if_pos rfl] at hx'; omega
        rw [if_neg hxn] at hx'
        exact hnbc x hx'
      have hcr1 : ColorRange (fun x => if x = node then 1 else colors x) := by
        intro x
        show (if x = node then 1 else colors x) < 3
        by_cases hx : x = node
        · rw [if_pos hx]; omega
        · rw [if_neg hx]; exact hcr x
      have hwc1 : g.whiteCount (fun x => if x = node then 1 else colors x) < fuel := by
        have := whiteCount_gray_update hg hord hwhite
        omega
      have hd := ihD (fun x => if x = node then 1 else colors x) par node stack
        (g.DependenciesOf node) hgc1 hbc1 hnbc1 hcr1 (fun d hd => hd) hwc1
      rw [dfsA_succ]
      rcases hres : dfsDeps g fuel (fun x => if x = node then 1 else colors x) par
          node (g.DependenciesOf node) with ⟨⟨c2, p2⟩, ores⟩
      rw [hres] at hd
      cases ores with
      | some c =>
        exact hd
      | none =>
        obtain ⟨hM1, hM2, hG, hRD, hbc2, hnbc2, hcr2⟩ := hd
        have hc2node : c2 node = 1 := by
          have h0 : (fun x => if x = node then 1 else colors x) node ≠ 0 := by simp
          have h2 : c2 node = if node = node then 1 else colors node := hM1 node h0
          rw [if_pos rfl] at h2
          exact h2
        have hM1' : ∀ x, colors x ≠ 0 → c2 x = colors x := by
          intro x hx
          have hxn : x ≠ node := by rintro rfl; exact hx hwhite
          have h2 : c2 x = if x = node then 1 else colors x :=
            hM1 x (by
              show (if x = node then 1 else colors x) ≠ 0
              rw [if_neg hxn]; exact hx)
          rw [if_neg hxn] at h2
          exact h2
        have hdepsblack : ∀ d ∈ g.DependenciesOf node, c2 d = 2 := by
          intro d hd2
          exact hRD d hd2 d Relation.ReflTransGen.refl
        show g.dfsPost colors par node
          ((fun x => if x = node then 2 else c2 x, p2), none)
        refine ⟨?_, ?_, ?_, ?_, ?_, ?_, ?_⟩
        · intro x hx
          have hxn : x ≠ node := by rintro rfl; exact hx hwhite
          show (if x = node then 2 else c2 x) = colors x
          rw [if_neg hxn]
          exact hM1' x hx
        · intro x hx
          have hxn : x ≠ node := by rintro rfl; exact hx hwhite
          exact hM2 x (by
            show (if x = node then 1 else colors x) ≠ 0
            rw [if_neg hxn]; exact hx)
        · intro x hx
          have hx' : (if x = node then 2 else c2 x) = 1 := hx
          by_cases hxn : x = node
          · rw [if_pos hxn] at hx'; omega
          · rw [if_neg hxn] at hx'
            have h2 : (if x = node then 1 else colors x) = 1 := hG x hx'
            rw [if_neg hxn] at h2
            exact h2
        · intro w hw
          show (if w = node then 2 else c2 w) = 2
          have hw' : Relation.ReflTransGen (fun u v => (u, v) ∈ g.edgeList)
            node w := hw
          rcases Relation.ReflTransGen.cases_head hw' with heqw | ⟨d, hdw, hrest⟩
          · rw [if_pos heqw.symm]
          · have hd2 : d ∈ g.DependenciesOf node := mem_DependenciesOf.mpr hdw
            have h3 := hRD d hd2 w hrest
            by_cases hwn : w = node
            · rw [if_pos hwn]
            · rw [if_neg hwn]; exact h3
        · intro x hx d hd2
          have hx' : (if x = node then 2 else c2 x) = 2 := hx
          show (if d = node then 2 else c2 d) = 2
          by_cases hdn : d = node
          · rw [if_pos hdn]
          · rw [if_neg hdn]
            by_cases hxn : x = node
            · subst hxn
              exact hdepsblack d hd2
            · rw [if_neg hxn] at hx'
              exact hbc2 x hx' d hd2
        · intro x hx
          have hx' : (if x = node then 2 else c2 x) = 2 := hx
          by_cases hxn : x = node
          · rw [hxn]
            intro hcyc
            have hcyc' : Relation.TransGen (fun u v => (u, v) ∈ g.edgeList)
              node node := hcyc
            obtain ⟨b, hb, hbr⟩ := Relation.TransGen.head'_iff.mp hcyc'
            have hbd : b ∈ g.DependenciesOf node := mem_DependenciesOf.mpr hb
            have hbblack : c2 b = 2 := hdepsblack b hbd
            have hbr' : g.DepReach b node := hbr
            have : c2 node = 2 := black_reach hbc2 hbblack hbr'
            omega
          · rw [if_neg hxn] at hx'
            exact hnbc2 x hx'
        · intro x
          show (if x = node then 2 else c2 x) < 3
          by_cases hxn : x = node
          · rw [if_pos hxn]; omega
          · rw [if_neg hxn]; exact hcr2 x
    refine ⟨hA, ?_⟩
    intro colors par node rest2 deps
    induction deps generalizing colors par with
    | nil =>
      intro hgc hbc hnbc hcr _ _
      rw [dfsDeps_nilE]
      exact ⟨fun x _ => rfl, fun x _ => rfl, fun x h => h,
        fun d hd => absurd hd (List.not_mem_nil d), hbc, hnbc, hcr⟩
    | cons dep rest ihdeps =>
      intro hgc hbc hnbc hcr hdeps hfuel
      obtain ⟨hgc_iff, hgc_ch, hgc_nd, hgc_sub⟩ := hgc
      have hdepnode : dep ∈ g.DependenciesOf node := hdeps dep (List.mem_cons_self _ _)
      have hedge : (node, dep) ∈ g.edgeList := mem_DependenciesOf.mp hdepnode
      rw [dfsDeps_consE]
      by_cases h1 : colors dep = 1
      · -- gray hit: report the reconstructed cycle
        rw [if_pos h1]
        have hdepstack : dep ∈ node :: rest2 := (hgc_iff dep).mp h1
        have hstacklen : (node :: rest2).length ≤ g.ordered.length :=
          (List.subperm_of_subset hgc_nd hgc_sub).length_le
        obtain ⟨w, hw, hcase⟩ := buildCycle_chain rest2 node hgc_ch hdepstack
          [dep, node] (g.ordered.length + 1)
          (by simp only [List.length_cons] at hstacklen; omega)
        show g.ValidCycleOf ((buildCycle par (g.ordered.length + 1) dep node
          [dep, node]).reverse)
        rw [hw]
        rcases hcase with ⟨hnd2, rfl⟩ | ⟨hne, hlast, hchw⟩
        · rw [hnd2]
          have hrw : (([dep, dep] : List String) ++ []).reverse = [dep, dep] := rfl
          rw [hrw]
          refine ⟨by simp, rfl, List.chain'_cons.mpr ⟨?_, List.chain'_singleton _⟩⟩
          rw [hnd2] at hedge
          exact hedge
        · have hrev : (([dep, node] : List String) ++ w).reverse =
              w.reverse ++ [node, dep] := by simp
          rw [hrev]
          have hwrev : w.reverse ≠ [] := fun h => hne (by simpa using h)
          refine ⟨?_, ?_, ?_⟩
          · have hlen : (w.reverse ++ [node, dep]).length = w.length + 2 := by simp
            omega
          · rw [List.head?_append_of_ne_nil _ hwrev]
            rw [List.head?_reverse, hlast]
            have h2 : (w.reverse ++ [node, dep]).getLast? = some dep := by
              rw [List.getLast?_append_of_ne_nil _ (by simp)]
              rfl
            rw [h2]
          · have hch2 : (node :: w).Chain' (fun a b => (b, a) ∈ g.edgeList) :=
              List.Chain'.imp (fun a b h => h.2) hchw
            have hch3 : ((node :: w).reverse).Chain'
                (fun a b => (a, b) ∈ g.edgeList) := by
              rw [List.chain'_reverse]
              exact hch2
            have hch4 : (w.reverse ++ [node]).Chain'
                (fun a b => (a, b) ∈ g.edgeList) := by
              have hr2 : (node :: w).reverse = w.reverse ++ [node] := by simp
              rw [← hr2]
              exact hch3
            have happ : (w.reverse ++ [node]) ++ [dep] = w.reverse ++ [node, dep] := by
              simp
            rw [← happ]
            refine hch4.append (List.chain'_singleton _) ?_
            intro x hx y hy
            rw [List.getLast?_append_of_ne_nil _ (by simp)] at hx
            have hx' : some node = some x := hx
            have hy' : some dep = some y := hy
            injection hx' with hxe
            injection hy' with hye
            subst hxe
            subst hye
            exact hedge
      · by_cases h0 : colors dep = 0
        · -- white: recurse into the dependency, then continue the scan
          rw [if_neg h1, if_pos h0]
          have hdepord : dep ∈ g.ordered := (hg.2.2 (node, dep) hedge).2
          have hdepstack : dep ∉ node :: rest2 := fun h => by
            have := (hgc_iff dep).mpr h
            omega
          have hpre : g.dfsPre (fuel + 1) colors
              (fun x => if x = dep then node else par x) (node :: rest2) dep := by
            refine ⟨⟨hgc_iff, ?_, hgc_nd, hgc_sub⟩, hbc, hnbc, hcr, h0, hdepord,
              hfuel, Or.inr ⟨node, rest2, rfl, ?_, hedge⟩⟩
            · refine chain'_par_congr (node :: rest2) ?_ hgc_ch
              intro x hx
              show (if x = dep then node else par x) = par x
              have hxd : x ≠ dep := by
                intro h
                rw [h] at hx
                exact hdepstack hx
              rw [if_neg hxd]
            · show (if dep = dep then node else par dep) = node
              rw [if_pos rfl]
          have hda := hA colors (fun x => if x = dep then node else par x)
            (node :: rest2) dep hpre
          rcases hres : dfsA g (fuel + 1) colors
              (fun x => if x = dep then node else par x) dep with ⟨⟨c2, p2⟩, ores⟩
          rw [hres] at hda
          cases ores with
          | some c => exact hda
          | none =>
            obtain ⟨hM1, hM2, hG, hR, hbc2, hnbc2, hcr2⟩ := hda
            dsimp only at hM1 hM2 hG hR hbc2 hnbc2 hcr2
            have hgrayeq : ∀ x, c2 x = 1 ↔ colors x = 1 := by
              intro x
              constructor
              · exact hG x
              · intro hx
                have hxne : colors x ≠ 0 := by
                  rw [hx]
                  exact Nat.one_ne_zero
                have hcc : c2 x = colors x := hM1 x hxne
                rw [hcc, hx]
            have hchain2 : List.Chain' (fun a b => p2 a = b ∧ (b, a) ∈ g.edgeList)
                (node :: rest2) := by
              refine chain'_par_congr (node :: rest2) ?_ hgc_ch
              intro x hx
              have hx1 : colors x = 1 := (hgc_iff x).mpr hx
              have h4 : p2 x = if x = dep then node else par x := hM2 x (by omega)
              have hxd : x ≠ dep := by
                intro h
                rw [h] at hx
                exact hdepstack hx
              rw [h4, if_neg hxd]
            have hwc2 : g.whiteCount c2 < fuel + 1 := by
              have hmono : g.whiteCount c2 ≤ g.whiteCount colors := by
                refine whiteCount_mono ?_
                intro x hx
                by_cases hxc : colors x = 0
                · exact hxc
                · have hcc : c2 x = colors x := hM1 x hxc
                  rw [← hcc]
                  exact hx
              omega
            have hrest := ihdeps c2 p2
              ⟨fun x => (hgrayeq x).trans (hgc_iff x), hchain2, hgc_nd, hgc_sub⟩
              hbc2 hnbc2 hcr2
              (fun d hd => hdeps d (List.mem_cons_of_mem _ hd)) hwc2
            show g.dfsDepsPost colors par (dep :: rest)
              (dfsDeps g (fuel + 1) c2 p2 node rest)
            rcases hres2 : dfsDeps g (fuel + 1) c2 p2 node rest with ⟨⟨c3, p3⟩, ores2⟩
            rw [hres2] at hrest
            try rw [hres2]
            cases ores2 with
            | some c => exact hrest
            | none =>
              obtain ⟨hM1b, hM2b, hGb, hRDb, hbc3, hnbc3, hcr3⟩ := hrest
              dsimp only at hM1b hM2b hGb hRDb hbc3 hnbc3 hcr3
              refine ⟨?_, ?_, ?_, ?_, hbc3, hnbc3, hcr3⟩
              · intro x hx
                show c3 x = colors x
                have h2 := hM1 x hx
                have h3 := hM1b x (by omega)
                rw [h3, h2]
              · intro x hx
                show p3 x = par x
                have hxdep : x ≠ dep := by rintro rfl; exact hx h0
                have h2 : p2 x = if x = dep then node else par x := hM2 x hx
                have h3 : p3 x = p2 x := hM2b x (by have := hM1 x hx; omega)
                rw [h3, h2, if_neg hxdep]
              · intro x hx
                exact hG x (hGb x hx)
              · intro d hd w hw
                show c3 w = 2
                rcases List.mem_cons.mp hd with rfl | hd
                · have h2 := hR w hw
                  have h3 := hM1b w (by omega)
                  rw [h3, h2]
                · exact hRDb d hd w hw
        · -- already black: skip and continue the scan
          rw [if_neg h1, if_neg h0]
          have h2col : colors dep = 2 := by
            have := hcr dep
            omega
          have hrest := ihdeps colors par ⟨hgc_iff, hgc_ch, hgc_nd, hgc_sub⟩
            hbc hnbc hcr (fun d hd => hdeps d (List.mem_cons_of_mem _ hd)) hfuel
          rcases hres2 : dfsDeps g (fuel + 1) colors par node rest with ⟨⟨c3, p3⟩, ores2⟩
          rw [hres2] at hrest
          cases ores2 with
          | some c => exact hrest
          | none =>
            obtain ⟨hM1b, hM2b, hGb, hRDb, hbc3, hnbc3, hcr3⟩ := hrest
            dsimp only at hM1b hM2b hGb hRDb hbc3 hnbc3 hcr3
            refine ⟨hM1b, hM2b, hGb, ?_, hbc3, hnbc3, hcr3⟩
            intro d hd w hw
            show c3 w = 2
            rcases List.mem_cons.mp hd with rfl | hd
            · have hwblack : colors w = 2 := black_reach hbc h2col hw
              have h3 := hM1b w (by omega)
              omega
            · exact hRDb d hd w hw

end Graph

namespace Graph

lemma detectLoop_consE (g : Graph) (id : String) (rest : List String)
    (colors : String → Nat) (par : String → String) :
    detectLoop g (id :: rest) colors par =
      (if colors id = 0 then
        match dfsA g (g.ordered.length + 1) colors par id with
        | (_, some c) => c
        | ((c2, p2), none) => detectLoop g rest c2 p2
      else detectLoop g rest colors par) := by
  simp only [detectLoop]

/-- Outer DFS loop: either it returns a valid cycle, or the graph is acyclic. -/
lemma detectLoop_spec {g : Graph} (hg : g.WF) :
    ∀ (ids : List String) (colors : String → Nat) (par : String → String),
      (∀ x ∈ ids, x ∈ g.ordered) →
      g.BlackClosed colors → g.NoBlackCycle colors → ColorRange colors →
      (∀ x, colors x ≠ 1) →
      (∀ x ∈ g.ordered, x ∉ ids → colors x = 2) →
      g.ValidCycleOf (detectLoop g ids colors par) ∨ ¬ g.Cyclic := by
  intro ids
  induction ids with
  | nil =>
    intro colors par _ _ hnbc _ _ hblack
    refine Or.inr ?_
    rintro ⟨x, hx⟩
    have hxord : x ∈ g.ordered := by
      have hx' : Relation.TransGen (fun u v => (u, v) ∈ g.edgeList) x x := hx
      obtain ⟨b, hb, -⟩ := Relation.TransGen.head'_iff.mp hx'
      exact (hg.2.2 (x, b) hb).1
    have h2 : colors x = 2 := hblack x hxord (List.not_mem_nil x)
    exact hnbc x h2 hx
  | cons id rest ih =>
    intro colors par hsub hbc hnbc hcr hnogray hblack
    have hidord : id ∈ g.ordered := hsub id (List.mem_cons_self _ _)
    rw [detectLoop_consE]
    by_cases h0 : colors id = 0
    · rw [if_pos h0]
      have hpre : g.dfsPre (g.ordered.length + 1) colors par [] id := by
        refine ⟨⟨?_, List.chain'_nil, List.nodup_nil, ?_⟩, hbc, hnbc, hcr, h0,
          hidord, ?_, Or.inl rfl⟩
        · intro x
          constructor
          · intro h
            exact absurd h (hnogray x)
          · intro h
            cases h
        · intro x hx
          cases hx
        · have := whiteCount_le g colors
          omega
      have hpost := (dfs_spec hg (g.ordered.length + 1)).1 colors par [] id hpre
      rcases hres : dfsA g (g.ordered.length + 1) colors par id with ⟨⟨c2, p2⟩, ores⟩
      rw [hres] at hpost
      cases ores with
      | some c =>
        exact Or.inl hpost
      | none =>
        obtain ⟨hM1, hM2, hG, hR, hbc2, hnbc2, hcr2⟩ := hpost
        dsimp only at hM1 hM2 hG hR hbc2 hnbc2 hcr2
        show g.ValidCycleOf (detectLoop g rest c2 p2) ∨ ¬ g.Cyclic
        refine ih c2 p2 (fun x hx => hsub x (List.mem_cons_of_mem _ hx))
          hbc2 hnbc2 hcr2 ?_ ?_
        · intro x hx
          exact hnogray x (hG x hx)
        · intro x hxord hxrest
          by_cases hxid : x = id
          · subst hxid
            exact hR _ Relation.ReflTransGen.refl
          · have hxout : x ∉ id :: rest := by
              intro h
              rcases List.mem_cons.mp h with h | h
              · exact hxid h
              · exact hxrest h
            have h2 : colors x = 2 := hblack x hxord hxout
            have h3 : c2 x = colors x := hM1 x (by omega)
            omega
    · rw [if_neg h0]
      refine ih colors par (fun x hx => hsub x (List.mem_cons_of_mem _ hx))
        hbc hnbc hcr hnogray ?_
      intro x hxord hxrest
      by_cases hxid : x = id
      · have ha : colors x < 3 := hcr x
        have hb : colors x ≠ 1 := hnogray x
        subst hxid
        omega
      · refine hblack x hxord ?_
        intro h
        rcases List.mem_cons.mp h with h | h
        · exact hxid h
        · exact hxrest h

/-- For a well-formed cyclic graph, `detectCycle` returns a valid closed
cycle path along existing edges. -/
lemma detectCycle_valid {g : Graph} (hg : g.WF) (hcyc : g.Cyclic) :
    g.ValidCycleOf g.detectCycle := by
  have h := detectLoop_spec hg g.ordered (fun _ => 0) (fun _ => "")
    (fun x hx => hx)
    (fun x hx => absurd hx (by simp))
    (fun x hx => absurd hx (by simp))
    (fun x => by show (0 : Nat) < 3; omega)
    (fun x => by simp)
    (fun x hxord hxout => absurd hxord hxout)
  rcases h with h | h
  · exact h
  · exact absurd hcyc h

/-- A cyclic graph makes `TopologicalSort` fail with the detected cycle. -/
lemma TopologicalSort_error_of_cyclic {g : Graph} (hg : g.WF) (hcyc : g.Cyclic) :
    g.TopologicalSort = .error g.detectCycle := by
  by_cases hlen : (g.kahnRun).length = g.ordered.length
  · exfalso
    obtain ⟨x, hx⟩ := hcyc
    have hok : g.TopologicalSort = .ok g.kahnRun := by
      rw [TopologicalSort_def, if_pos hlen]
    exact acyclic_of_TopologicalSort_ok hg hok x hx
  · rw [TopologicalSort_def, if_neg hlen]

/-- A cyclic graph makes `Layers` fail with the detected cycle. -/
lemma Layers_error_of_cyclic {g : Graph} (hg : g.WF) (hcyc : g.Cyclic) :
    g.Layers = .error g.detectCycle := by
  by_cases hlen : (g.layersRun).flatten.length = g.ordered.length
  · exfalso
    obtain ⟨x, hx⟩ := hcyc
    have hok : g.Layers = .ok g.layersRun := by
      rw [Layers_def, if_pos hlen]
    exact acyclic_of_Layers_ok hg hok x hx
  · rw [Layers_def, if_neg hlen]

end Graph

/-- The spec's example cyclic graph: edges A → B → C → A. -/
def cyc3 : Graph := ((Graph.new.AddEdge "A" "B").AddEdge "B" "C").AddEdge "C" "A"

/-- C4: a graph containing a dependency cycle makes both `TopologicalSort` and
`Layers` fail with the cycle error, and the reported cycle path is an ordered,
closed walk (length ≥ 2, first node id = last node id) whose every consecutive
pair is an existing edge of the graph. -/
theorem C4_cycle_error_valid (g : Graph) (hg : g.WF) (hcyc : g.Cyclic) :
    g.TopologicalSort = .error g.detectCycle ∧
    g.Layers = .error g.detectCycle ∧
    2 ≤ g.detectCycle.length ∧
    g.detectCycle.head? = g.detectCycle.getLast? ∧
    List.Chain' (fun a b => (a, b) ∈ g.edgeList) g.detectCycle := by
  obtain ⟨hlen, hclosed, hchain⟩ := Graph.detectCycle_valid hg hcyc
  exact ⟨Graph.TopologicalSort_error_of_cyclic hg hcyc,
    Graph.Layers_error_of_cyclic hg hcyc, hlen, hclosed, hchain⟩

theorem C4_witness :
    cyc3.WF ∧ cyc3.Cyclic ∧
      (cyc3.TopologicalSort = .error cyc3.detectCycle ∧
       cyc3.Layers = .error cyc3.detectCycle ∧
       2 ≤ cyc3.detectCycle.length ∧
       cyc3.detectCycle.head? = cyc3.detectCycle.getLast? ∧
       List.Chain' (fun a b => (a, b) ∈ cyc3.edgeList) cyc3.detectCycle) := by
  have h1 : ("A", "B") ∈ cyc3.edgeList := by decide
  have h2 : ("B", "C") ∈ cyc3.edgeList := by decide
  have h3 : ("C", "A") ∈ cyc3.edgeList := by decide
  have hcyc : cyc3.Cyclic :=
    ⟨"A", Relation.TransGen.head h1
      (Relation.TransGen.head h2 (Relation.TransGen.single h3))⟩
  exact ⟨by decide, hcyc, C4_cycle_error_valid cyc3 (by decide) hcyc⟩
